import Mathlib

/-!
Verification development for the configman repository (pjmp/configman).

The program synchronizes a dotfiles source directory with a destination
directory by creating symbolic links.  The core under verification is
src/cli.rs (the variant wired into main.rs): the tree walk (dir_walk),
the four modes (Normal, DryRun, Remove, Import), the confirmation gate
(ask_and_run) and the filesystem actions (create_dir, create_file), plus
the path-string expansion in src/utils.rs (expand).

Shallow embedding choices:
 - A filesystem is an association list from absolute paths (lists of
   component names) to entries (regular file with contents, directory,
   or symbolic link storing its raw target path).  Only the final
   component of a path may be a symlink in the filesystems we quantify
   over; this matches the trees configman itself creates.
 - Rust Path::is_file / is_dir / exists resolve symlink chains; this is
   modelled by FS.stat, which follows up to 40 links like Linux
   (ELOOP at SYMLOOP_MAX).  fs::symlink_metadata / fs::read_link use the
   unresolved entry (FS.find?).
 - The walker produced by the ignore crate WalkBuilder yields the root
   itself first and then every entry it descends to.  cli.rs configures
   standard_filters(false).hidden(false) and does not call skip(1) or
   filter_entry, so the model visits the root and filters entries only
   through the ignore-rule predicate "ign" abstracted from the ignore
   files (a tree without ignore files compiles to the predicate that is
   constantly false).  Walk order is a deterministic enumeration of the
   surviving keys; the ignore crate leaves the order unspecified.
 - Each mode callback is translated line by line from Configman::run.
   I/O failures that depend only on filesystem state (remove_file on a
   missing path or a directory, symlink onto an existing path, copy from
   a missing source, the DryRun "should either be file or directory"
   error) are modelled; external I/O failures (permissions) are not, and
   symlink creation does not model the parent-directory-must-exist
   failure.  A run returns the final filesystem, the trace of emitted
   events (mutating syscalls and log lines) and an optional error.
 - The interactive prompt of ask_and_run is answered by a user oracle
   indexed by the path the prompt message names (every prompt message in
   cli.rs displays the path being mutated).
-/

namespace Configman

abbrev Name := String

/-- An absolute path, as its list of components. -/
abbrev Path := List Name

/-- A filesystem entry: regular file (with contents), directory, or
symbolic link storing its raw target path (fs::read_link result). -/
inductive Entry where
  | file (content : String)
  | dir
  | symlink (target : Path)
deriving DecidableEq, Repr

/-- A filesystem: association list from paths to entries (first match wins). -/
abbrev FS := List (Path × Entry)

def FS.find? : FS → Path → Option Entry
  | [], _ => none
  | (q, e) :: rest, p => if q = p then some e else FS.find? rest p

def FS.keys (fs : FS) : List Path := fs.map Prod.fst

/-- Remove every binding of path p (fs::remove_file on the link itself). -/
def FS.eraseAll : FS → Path → FS
  | [], _ => []
  | (q, e) :: rest, p => if q = p then FS.eraseAll rest p else (q, e) :: FS.eraseAll rest p

/-- Bind path p to entry e, shadowing previous bindings. -/
def FS.insert (fs : FS) (p : Path) (e : Entry) : FS := (p, e) :: FS.eraseAll fs p

/-- Follow up to n symlink hops starting at path p. -/
def FS.resolveN : Nat → FS → Path → Option Entry
  | 0, _, _ => none
  | n + 1, fs, p =>
    match FS.find? fs p with
    | some (Entry.symlink t) => FS.resolveN n fs t
    | o => o

/-- Resolve a path as stat does, following at most 40 links (SYMLOOP_MAX). -/
def FS.stat (fs : FS) (p : Path) : Option Entry := FS.resolveN 40 fs p

/-- Rust Path::exists (follows symlinks; false for broken links). -/
def FS.pathExists (fs : FS) (p : Path) : Bool := (FS.stat fs p).isSome

/-- Rust Path::is_file (follows symlinks). -/
def FS.isFile (fs : FS) (p : Path) : Bool :=
  match FS.stat fs p with
  | some (Entry.file _) => true
  | _ => false

/-- Rust Path::is_dir (follows symlinks). -/
def FS.isDir (fs : FS) (p : Path) : Bool :=
  match FS.stat fs p with
  | some Entry.dir => true
  | _ => false

/-- Two filesystems holding the same entry at every path. -/
def FS.Equiv (a b : FS) : Prop := ∀ p, FS.find? a p = FS.find? b p

/-- Observable events of a run: mutating filesystem operations and the
log lines of cli.rs, in program order. -/
inductive Event where
  | mkdirAll (t : Path)
  | removeFile (t : Path)
  | symlinked (link orig : Path)
  | copied (src dst : Path)
  | logCreate (t : Path)
  | logLink (t : Path)
  | logUnlinked (t : Path)
  | logDryCreate (t : Path)
  | logDrySkip (t : Path)
  | logDryLink (src t : Path)
  | logWarnExist (t : Path)
deriving DecidableEq, Repr

/-- Does the event mutate the filesystem (as opposed to only logging)? -/
def Event.isMutation : Event → Bool
  | Event.mkdirAll _ => true
  | Event.removeFile _ => true
  | Event.symlinked _ _ => true
  | Event.copied _ _ => true
  | _ => false

def mutations (evs : List Event) : List Event := evs.filter Event.isMutation

/-- Result of a run, possibly cut short by an error: final filesystem, event trace, and the
error that aborted the walk, if any. -/
structure Out where
  fs : FS
  evs : List Event
  err : Option String
deriving DecidableEq, Repr

def Out.ok (fs : FS) (evs : List Event) : Out := ⟨fs, evs, none⟩

/-- Sequencing that threads the filesystem and accumulates events,
stopping at the first error (the ? operator of cli.rs). -/
def Out.andThen (o : Out) (f : FS → Out) : Out :=
  match o.err with
  | some _ => o
  | none =>
    let o2 := f o.fs
    ⟨o2.fs, o.evs ++ o2.evs, o2.err⟩

/-- fs::remove_file: unlinks a file or symlink; errors on a missing path
or a directory. -/
def fsRemoveFile (fs : FS) (p : Path) : Out :=
  match FS.find? fs p with
  | none => ⟨fs, [], some "remove_file: No such file or directory"⟩
  | some Entry.dir => ⟨fs, [], some "remove_file: Is a directory"⟩
  | some _ => ⟨FS.eraseAll fs p, [Event.removeFile p], none⟩

/-- std::os::unix::fs::symlink(original, link): creates the link; errors
if something already sits at the link path. -/
def fsSymlink (fs : FS) (orig link : Path) : Out :=
  match FS.find? fs link with
  | some _ => ⟨fs, [], some "symlink: File exists"⟩
  | none => ⟨FS.insert fs link (Entry.symlink orig), [Event.symlinked link orig], none⟩

/-- Follow trailing symlinks to the final path that File::create would
open (up to 40 hops; none on a longer chain, the ELOOP case). -/
def finalPath : Nat → FS → Path → Option Path
  | 0, _, _ => none
  | n + 1, fs, p =>
    match FS.find? fs p with
    | some (Entry.symlink t) => finalPath n fs t
    | _ => some p

/-- fs::copy: reads the resolved source contents and opens the
destination with File::create, which follows a trailing symlink at the
destination: the bytes land at the final path of the destination chain
(a symlink entry at the destination itself is left in place), an
existing regular file there is truncated and overwritten, a directory
there is an error, and a symlink loop is an error.  As with fsSymlink,
the parent-directory-must-exist failure at the final path is not
modelled. -/
def fsCopy (fs : FS) (src dst : Path) : Out :=
  match FS.stat fs src with
  | some (Entry.file c) =>
    match finalPath 40 fs dst with
    | some r =>
      match FS.find? fs r with
      | some Entry.dir => ⟨fs, [], some "copy: destination is a directory"⟩
      | _ => ⟨FS.insert fs r (Entry.file c), [Event.copied src dst], none⟩
    | none => ⟨fs, [], some "copy: too many levels of symbolic links"⟩
  | _ => ⟨fs, [], some "copy: invalid source"⟩

/-- The nonempty prefixes of a path, shortest first. -/
def pathPrefixes (t : Path) : List Path :=
  (List.range t.length).map (fun k => t.take (k + 1))

/-- Create a directory at every listed path that is still absent, in
order. -/
def mkdirFold (fs : FS) (l : List Path) : FS :=
  l.foldl (fun acc q => if (FS.find? acc q).isNone then FS.insert acc q Entry.dir else acc) fs

/-- fs::create_dir_all: creates a directory at every missing prefix. -/
def fsMkdirAll (fs : FS) (t : Path) : Out :=
  ⟨mkdirFold fs (pathPrefixes t), [Event.mkdirAll t], none⟩

/-- The configuration a run sees: the interactive flag, the user oracle
answering each prompt (indexed by the path the prompt names), and the
resolved source and destination directories. -/
structure Cfg where
  interactive : Bool
  ans : Path → Bool
  src : Path
  dest : Path

/-- Destination path of a walk entry: destination joined with the
entry path relative to source (target.join(path.strip_prefix(source))). -/
def Cfg.targ (c : Cfg) (p : Path) : Path := c.dest ++ p.drop c.src.length

/-- Configman::ask_and_run: gate an effect behind a yes/no prompt when
interactive; run it unconditionally otherwise. -/
def ask_and_run (c : Cfg) (key : Path) (fs : FS) (cb : FS → Out) : Out :=
  if c.interactive then
    if c.ans key then cb fs else Out.ok fs []
  else cb fs

/-- Configman::create_dir. -/
def create_dir (c : Cfg) (fs : FS) (t : Path) : Out :=
  ask_and_run c t fs (fun fs1 =>
    (fsMkdirAll fs1 t).andThen (fun fs2 => Out.ok fs2 [Event.logCreate t]))

/-- Configman::create_file: symlink at target pointing to src, removing
an existing target first (the Overwrite prompt branch). -/
def create_file (c : Cfg) (fs : FS) (src target : Path) : Out :=
  let exist := FS.pathExists fs target
  ask_and_run c target fs (fun fs1 =>
    (if exist then fsRemoveFile fs1 target else Out.ok fs1 []).andThen (fun fs2 =>
      (fsSymlink fs2 src target).andThen (fun fs3 =>
        Out.ok fs3 [Event.logLink target])))

/-- The Mode::Normal per-entry callback. -/
def stepNormal (c : Cfg) (fs : FS) (p : Path) : Out :=
  let t := c.targ p
  if FS.isDir fs p then
    if !FS.pathExists fs t then create_dir c fs t else Out.ok fs []
  else if FS.isFile fs p then
    create_file c fs p t
  else Out.ok fs []

/-- The Mode::DryRun per-entry callback. -/
def stepDryRun (c : Cfg) (fs : FS) (p : Path) : Out :=
  let t := c.targ p
  if FS.isDir fs p then
    if !FS.pathExists fs t then Out.ok fs [Event.logDryCreate t] else Out.ok fs []
  else if FS.isFile fs p then
    if FS.pathExists fs t then Out.ok fs [Event.logDrySkip t]
    else Out.ok fs [Event.logDryLink p t]
  else ⟨fs, [], some "should either be file or directory"⟩

/-- The Mode::Remove per-entry callback. -/
def stepRemove (c : Cfg) (fs : FS) (p : Path) : Out :=
  let t := c.targ p
  if FS.isFile fs t then
    match FS.find? fs t with
    | some (Entry.symlink real) =>
      if real = p then
        ask_and_run c t fs (fun fs1 =>
          (fsRemoveFile fs1 t).andThen (fun fs2 => Out.ok fs2 [Event.logUnlinked t]))
      else Out.ok fs []
    | _ => Out.ok fs []
  else Out.ok fs []

/-- The Mode::Import per-entry callback.  Note that fs::copy and
fs::remove_file run outside ask_and_run; only the final create_file is
gated. -/
def stepImport (c : Cfg) (fs : FS) (p : Path) : Out :=
  let t := c.targ p
  if !FS.pathExists fs t then
    (if FS.isDir fs p then create_dir c fs t else Out.ok fs []).andThen (fun fs1 =>
      if FS.isFile fs1 p then
        (fsCopy fs1 p t).andThen (fun fs2 =>
          (fsRemoveFile fs2 p).andThen (fun fs3 =>
            create_file c fs3 t p))
      else Out.ok fs1 [])
  else Out.ok fs [Event.logWarnExist t]

inductive Mode where
  | DryRun
  | Remove
  | Import
  | Normal
deriving DecidableEq, Repr

def stepFor : Mode → Cfg → FS → Path → Out
  | Mode.DryRun => stepDryRun
  | Mode.Remove => stepRemove
  | Mode.Import => stepImport
  | Mode.Normal => stepNormal

/-- Proper prefixes of p strictly longer than src (the intermediate
directories the walker descends through). -/
def betweenPrefixes (src p : Path) : List Path :=
  ((List.range p.length).filter (fun k => src.length < k)).map (fun k => p.take k)

/-- Prefixes of p strictly longer than src, including p itself (the
paths the ignore rules are consulted on). -/
def belowPrefixes (src p : Path) : List Path :=
  ((List.range (p.length + 1)).filter (fun k => src.length < k)).map (fun k => p.take k)

/-- Does the walk of the ignore crate reach path p from src?  The root
itself is always yielded (depth 0 is never filtered); a deeper entry is
reached when it exists, every intermediate entry is a directory, and no
intermediate entry nor the entry itself is matched by an ignore rule. -/
def survives (fs : FS) (ign : Path → Bool) (src p : Path) : Bool :=
  if p = src then (FS.find? fs src).isSome
  else
    decide (src <+: p)
    && (FS.find? fs p).isSome
    && (betweenPrefixes src p).all (fun q => decide (FS.find? fs q = some Entry.dir))
    && (belowPrefixes src p).all (fun q => !ign q)

/-- The entries visited by Configman::dir_walk, in enumeration order. -/
def walkList (fs : FS) (ign : Path → Bool) (src : Path) : List Path :=
  (FS.keys fs).filter (survives fs ign src)

/-- The (source path, destination path) pairs dir_walk passes to the
callback. -/
def dirWalkEntries (fs : FS) (ign : Path → Bool) (src dest : Path) : List (Path × Path) :=
  (walkList fs ign src).map (fun p => (p, dest ++ p.drop src.length))

/-- Fold the per-entry callback over the visited entries, stopping at
the first callback error (which aborts the walk). -/
def runWalk (step : FS → Path → Out) : FS → List Path → Out
  | fs, [] => Out.ok fs []
  | fs, p :: rest =>
    let o := step fs p
    match o.err with
    | some e => ⟨o.fs, o.evs, some e⟩
    | none =>
      let o2 := runWalk step o.fs rest
      ⟨o2.fs, o.evs ++ o2.evs, o2.err⟩

/-- Configman::run for a given mode: walk the tree rooted at the
configured source and apply the mode callback to every entry. -/
def run (c : Cfg) (m : Mode) (ign : Path → Bool) (fs : FS) : Out :=
  runWalk (stepFor m c) fs (walkList fs ign c.src)

/-- The boolean flags of the Configman clap struct (paths omitted).  The
source field named import is a Lean keyword and is called importFlag. -/
structure Flags where
  verbose : Bool
  importFlag : Bool
  interactive : Bool
  dry_run : Bool
  remove : Bool
deriving DecidableEq, Repr

/-- Mode selection at the top of Configman::run. -/
def Flags.mode (f : Flags) : Mode :=
  if f.dry_run then Mode.DryRun
  else if f.importFlag then Mode.Import
  else if f.remove then Mode.Remove
  else Mode.Normal

/-- The conflicts_with declarations of the clap struct: verbose/dry_run,
interactive/dry_run and importFlag/remove are mutually exclusive. -/
def Flags.conflictsOk (f : Flags) : Bool :=
  !(f.verbose && f.dry_run) && !(f.importFlag && f.remove) && !(f.interactive && f.dry_run)

/-- Replace every occurrence of the tilde character by the home string
(Rust str::replace with a char pattern), on character lists. -/
def replaceTilde (home : List Char) : List Char → List Char
  | [] => []
  | ch :: rest =>
    if ch = '~' then home ++ replaceTilde home rest else ch :: replaceTilde home rest

/-- utils::expand, string stage: when the string contains a tilde
anywhere, every tilde is replaced by the home directory; canonicalize
(which falls back to the unchanged path on failure) is applied
afterwards and is not part of this pure stage. -/
def expand (home s : String) : String :=
  if s.toList.any (fun ch => ch = '~') then String.mk (replaceTilde home.toList s.toList)
  else s

/-- The ignore-rule predicate compiled from a tree without ignore files. -/
def emptyIgn : Path → Bool := fun _ => false

/-! Auxiliary predicates used by the Normal-mode idempotence analysis. -/

/-- The sub-association-list of entries below src (in original order):
the part of the filesystem the walk enumeration depends on. -/
def srcView (src : Path) (fs : FS) : FS := fs.filter (fun x => decide (src <+: x.1))

/-- No entry below src is a symbolic link (the plain dotfiles-tree shape
Normal mode is meant for). -/
def noSrcLinks (fs : FS) (src : Path) : Bool :=
  fs.all (fun x => !(decide (src <+: x.1)) ||
    (match x.2 with
     | Entry.symlink _ => false
     | _ => true))

/-- Compatibility of one walk entry with its destination: the
destination entry of a file entry is absent, a regular file, or a
symlink that resolves and points back into the source tree; the
destination entry of a directory entry is absent or a directory.
These are the destination shapes on which a Normal run cannot fail. -/
def entryCompat (fs : FS) (c : Cfg) (p : Path) : Bool :=
  if p = c.src then true
  else if FS.isFile fs p then
    match FS.find? fs (c.targ p) with
    | none => true
    | some Entry.dir => false
    | some (Entry.file _) => true
    | some (Entry.symlink r) => decide (c.src <+: r) && FS.isFile fs (c.targ p)
  else if FS.isDir fs p then
    match FS.find? fs (c.targ p) with
    | none => true
    | some Entry.dir => true
    | _ => false
  else true

/-- Postcondition of a Normal run at one walk entry (classification
taken in the initial filesystem fs0): a file entry has its destination
linked back to it, a directory entry has its destination directory in
place. -/
def postNormal (c : Cfg) (fs0 fsc : FS) (p : Path) : Prop :=
  (FS.isFile fs0 p = true → FS.find? fsc (c.targ p) = some (Entry.symlink p)) ∧
  (FS.isDir fs0 p = true → FS.find? fsc (c.targ p) = some Entry.dir)

/-- Invariant maintained by a non-interactive Normal run over a
filesystem fs0: the source side is untouched, the destination root is
still a directory, and every walk entry's destination holds either its
original entry or the entry Normal mode creates for it. -/
def normalInv (c : Cfg) (ign : Path → Bool) (fs0 fsc : FS) : Prop :=
  srcView c.src fsc = srcView c.src fs0 ∧
  FS.find? fsc c.dest = some Entry.dir ∧
  ∀ p ∈ walkList fs0 ign c.src,
    FS.find? fsc (c.targ p) = FS.find? fs0 (c.targ p) ∨
    (FS.isFile fs0 p = true ∧ FS.find? fsc (c.targ p) = some (Entry.symlink p)) ∨
    (FS.isDir fs0 p = true ∧ FS.find? fsc (c.targ p) = some Entry.dir)

/-! Concrete fixtures used by counterexamples and witnesses. -/

/-- Source root used by the fixtures. -/
def srcP : Path := ["s"]

/-- Destination root used by the fixtures. -/
def destP : Path := ["d"]

/-- Non-interactive configuration over the fixture roots. -/
def niCfg : Cfg := ⟨false, fun _ => false, srcP, destP⟩

/-- Interactive configuration whose user answers no to every prompt. -/
def allNoCfg : Cfg := ⟨true, fun _ => false, srcP, destP⟩

/-- Source with one file; empty destination directory. -/
def fsOne : FS := [(srcP, Entry.dir), (["s", "a"], Entry.file "x"), (destP, Entry.dir)]

/-- Source with one file; destination already holds a regular file of
the same name. -/
def fsClash : FS :=
  [(srcP, Entry.dir), (["s", "a"], Entry.file "x"), (destP, Entry.dir),
   (["d", "a"], Entry.file "y")]

/-- Source containing a .git directory with a config file inside. -/
def fsGit : FS :=
  [(srcP, Entry.dir), (["s", ".git"], Entry.dir),
   (["s", ".git", "config"], Entry.file "c"), (destP, Entry.dir)]

/-- Empty source tree, destination present. -/
def fsEmpty : FS := [(srcP, Entry.dir), (destP, Entry.dir)]

/-- Source with a subdirectory that already exists in the destination. -/
def fsSub : FS :=
  [(srcP, Entry.dir), (["s", "sub"], Entry.dir), (destP, Entry.dir),
   (["d", "sub"], Entry.dir)]

/-- Destination already linked to the source file (state after a Normal
run on fsOne). -/
def fsLinked : FS :=
  [(srcP, Entry.dir), (["s", "a"], Entry.file "x"), (destP, Entry.dir),
   (["d", "a"], Entry.symlink ["s", "a"])]

/-! Basic lemmas about the filesystem operations. -/

theorem FS.find?_eraseAll (fs : FS) (p q : Path) :
    FS.find? (FS.eraseAll fs p) q = if q = p then none else FS.find? fs q := by
  induction fs with
  | nil => simp [FS.eraseAll, FS.find?]
  | cons hd rest ih =>
    obtain ⟨k, e⟩ := hd
    simp only [FS.eraseAll, FS.find?]
    by_cases hk : k = p
    · rw [if_pos hk, ih]
      by_cases hq : q = p
      · simp [hq]
      · have hkq : ¬ k = q := fun h => hq (by rw [← h, hk])
        simp [hq, hkq]
    · rw [if_neg hk]
      simp only [FS.find?]
      by_cases hkq : k = q
      · have hqp : ¬ q = p := fun h => hk (by rw [hkq, h])
        simp [hkq, hqp]
      · by_cases hq : q = p
        · subst hq
          simp [hkq, ih]
        · simp [hq, hkq, ih]

theorem FS.find?_insert (fs : FS) (p : Path) (e : Entry) (q : Path) :
    FS.find? (FS.insert fs p e) q = if q = p then some e else FS.find? fs q := by
  simp only [FS.insert, FS.find?]
  by_cases hq : p = q
  · simp [hq]
  · have hq2 : ¬ q = p := fun h => hq h.symm
    simp [hq, hq2, FS.find?_eraseAll]

theorem FS.find?_mem {fs : FS} {q : Path} {e : Entry} (h : FS.find? fs q = some e) :
    (q, e) ∈ fs := by
  induction fs with
  | nil => simp [FS.find?] at h
  | cons hd rest ih =>
    obtain ⟨k, e2⟩ := hd
    simp only [FS.find?] at h
    by_cases hk : k = q
    · rw [if_pos hk] at h
      injection h with h2
      rw [← hk, ← h2]
      exact List.mem_cons_self _ _
    · rw [if_neg hk] at h
      exact List.mem_cons_of_mem _ (ih h)

theorem FS.find?_isSome_iff_mem_keys {fs : FS} {q : Path} :
    (FS.find? fs q).isSome = true ↔ q ∈ FS.keys fs := by
  induction fs with
  | nil => simp [FS.find?, FS.keys]
  | cons hd rest ih =>
    obtain ⟨k, e⟩ := hd
    simp only [FS.find?, FS.keys, List.map_cons, List.mem_cons]
    by_cases hk : k = q
    · rw [if_pos hk]
      constructor
      · intro _
        exact Or.inl hk.symm
      · intro _
        rfl
    · rw [if_neg hk, ih]
      constructor
      · intro h2
        exact Or.inr h2
      · intro h2
        rcases h2 with h2 | h2
        · exact absurd h2.symm hk
        · exact h2

theorem FS.resolveN_congr {fsa fsb : FS} (h : ∀ r, FS.find? fsa r = FS.find? fsb r)
    (n : Nat) (p : Path) : FS.resolveN n fsa p = FS.resolveN n fsb p := by
  induction n generalizing p with
  | zero => rfl
  | succ n ih =>
    simp only [FS.resolveN]
    rw [h p]
    cases FS.find? fsb p with
    | none => rfl
    | some e =>
      cases e with
      | file c => rfl
      | dir => rfl
      | symlink t => exact ih t

theorem FS.stat_congr {fsa fsb : FS} (h : ∀ r, FS.find? fsa r = FS.find? fsb r) (p : Path) :
    FS.stat fsa p = FS.stat fsb p := FS.resolveN_congr h 40 p

theorem FS.resolveN_of_plain {fs : FS} {p : Path} {n : Nat}
    (h : ∀ t, FS.find? fs p ≠ some (Entry.symlink t)) (hn : 0 < n) :
    FS.resolveN n fs p = FS.find? fs p := by
  cases n with
  | zero => omega
  | succ n => simp only [FS.resolveN]

theorem FS.stat_of_file {fs : FS} {p : Path} {c : String}
    (h : FS.find? fs p = some (Entry.file c)) : FS.stat fs p = some (Entry.file c) := by
  rw [FS.stat, FS.resolveN_of_plain (fun t => by simp [h]) (by omega), h]

theorem FS.stat_of_dir {fs : FS} {p : Path} (h : FS.find? fs p = some Entry.dir) :
    FS.stat fs p = some Entry.dir := by
  rw [FS.stat, FS.resolveN_of_plain (fun t => by simp [h]) (by omega), h]

theorem FS.stat_of_none {fs : FS} {p : Path} (h : FS.find? fs p = none) :
    FS.stat fs p = none := by
  rw [FS.stat, FS.resolveN_of_plain (fun t => by simp [h]) (by omega), h]

theorem FS.stat_symlink {fs : FS} {p : Path} {t : Path}
    (h : FS.find? fs p = some (Entry.symlink t)) :
    FS.stat fs p = FS.resolveN 39 fs t := by
  rw [FS.stat]
  show FS.resolveN (39 + 1) fs p = _
  simp only [FS.resolveN, h]

theorem FS.find?_some_of_stat_some {fs : FS} {p : Path} {e : Entry}
    (h : FS.stat fs p = some e) : ∃ e2, FS.find? fs p = some e2 := by
  cases he : FS.find? fs p with
  | some e2 => exact ⟨e2, rfl⟩
  | none =>
    rw [FS.stat_of_none he] at h
    exact absurd h (by simp)

theorem mutations_append (a b : List Event) :
    mutations (a ++ b) = mutations a ++ mutations b := by
  simp [mutations, List.filter_append]

/-! Generic facts about runWalk. -/

theorem runWalk_pure {step : FS → Path → Out}
    (hstep : ∀ fs p, (step fs p).fs = fs ∧ mutations (step fs p).evs = []) :
    ∀ fs l, (runWalk step fs l).fs = fs ∧ mutations (runWalk step fs l).evs = [] := by
  intro fs l
  induction l generalizing fs with
  | nil => simp [runWalk, Out.ok, mutations]
  | cons p rest ih =>
    simp only [runWalk]
    cases he : (step fs p).err with
    | some e =>
      simp only [he]
      exact hstep fs p
    | none =>
      have h1 := hstep fs p
      have h2 := ih (step fs p).fs
      rw [h1.1] at h2
      simp [he, h1.1, mutations_append, h1.2, h2.1, h2.2]

theorem runWalk_stateless_events {step : FS → Path → Out}
    (hfs : ∀ fs p, (step fs p).fs = fs) :
    ∀ fs l, (∀ p ∈ l, (step fs p).err = none) →
      (runWalk step fs l).err = none ∧
      (runWalk step fs l).evs = l.flatMap (fun p => (step fs p).evs) := by
  intro fs l
  induction l generalizing fs with
  | nil => simp [runWalk, Out.ok]
  | cons p rest ih =>
    intro hall
    have he : (step fs p).err = none := hall p (List.mem_cons_self _ _)
    have h2 := ih fs (fun q hq => hall q (List.mem_cons_of_mem _ hq))
    simp only [runWalk, he, hfs fs p]
    simp [h2.1, h2.2]

theorem runWalk_cons_of_err_none {step : FS → Path → Out} {fs : FS} {p : Path}
    {rest : List Path} (h : (step fs p).err = none) :
    runWalk step fs (p :: rest)
      = ⟨(runWalk step (step fs p).fs rest).fs,
         (step fs p).evs ++ (runWalk step (step fs p).fs rest).evs,
         (runWalk step (step fs p).fs rest).err⟩ := by
  simp only [runWalk, h]

/-! Per-step facts about the DryRun callback. -/

theorem stepDryRun_pure (c : Cfg) (fs : FS) (p : Path) :
    (stepDryRun c fs p).fs = fs ∧ mutations (stepDryRun c fs p).evs = [] := by
  simp only [stepDryRun]
  split
  · split <;> simp [Out.ok, mutations, Event.isMutation]
  · split
    · split <;> simp [Out.ok, mutations, Event.isMutation]
    · simp [mutations]

theorem stepDryRun_err_of_kind (c : Cfg) (fs : FS) (p : Path)
    (hp : FS.isFile fs p = true ∨ FS.isDir fs p = true) :
    (stepDryRun c fs p).err = none := by
  simp only [stepDryRun]
  split
  · split <;> rfl
  · split
    · split <;> rfl
    · rename_i hD hF
      rcases hp with h | h
      · exact absurd h hF
      · exact absurd h hD

/-- DryRun runs never change the filesystem and never emit a mutation
event, for every tree and configuration. -/
theorem dryrun_pure (c : Cfg) (ign : Path → Bool) (fs : FS) :
    (run c Mode.DryRun ign fs).fs = fs ∧
    mutations (run c Mode.DryRun ign fs).evs = [] :=
  runWalk_pure (stepDryRun_pure c) fs (walkList fs ign c.src)

/-! Facts about replaceTilde used for claim C9. -/

theorem replaceTilde_no_tilde {home : List Char}
    (hh : home.all (fun ch => ch ≠ '~') = true) :
    ∀ l, (replaceTilde home l).all (fun ch => ch ≠ '~') = true := by
  intro l
  induction l with
  | nil => rfl
  | cons ch rest ih =>
    simp only [replaceTilde]
    by_cases hc : ch = '~'
    · rw [if_pos hc, List.all_append, ih, hh]
      rfl
    · rw [if_neg hc]
      rw [List.all_cons, ih]
      simp [hc]

/-- C9 counterexample: the string a~b does not begin with a tilde, yet
expand rewrites it (the code tests contains, not a leading tilde, and
replaces every occurrence), so strings not beginning with a tilde are
not passed through with their characters intact. -/
theorem expand_leading_tilde_only_counterexample :
    ("a~b".toList.head? = some 'a') ∧
    expand "/home/u" "a~b" = "a/home/ub" ∧
    ("a/home/ub" = "a~b") = False := by
  refine ⟨by decide, by decide, by simp⟩

/-- C9 (amended): expand replaces every tilde occurrence, wherever it
appears, exactly when the string contains a tilde anywhere; a string
with no tilde at all is passed through intact, and a string that does
begin with a tilde has that leading tilde (and every later one)
replaced by the home directory. -/
theorem expand_tilde_any_position (home s : String) :
    (s.toList.any (fun ch => ch = '~') = false → expand home s = s) ∧
    (home.toList.all (fun ch => ch ≠ '~') = true →
      (expand home s).toList.all (fun ch => ch ≠ '~') = true) ∧
    (∀ rest, s.toList = '~' :: rest →
      (expand home s).toList = home.toList ++ replaceTilde home.toList rest) := by
  refine ⟨fun h => ?_, fun hh => ?_, fun rest hr => ?_⟩
  · simp only [expand]
    rw [if_neg (by rw [h]; exact Bool.false_ne_true)]
  · rw [expand]
    by_cases hc : s.toList.any (fun ch => ch = '~') = true
    · rw [if_pos hc]
      exact replaceTilde_no_tilde hh s.toList
    · rw [if_neg hc]
      have hc2 : s.toList.any (fun ch => ch = '~') = false := by
        revert hc
        cases s.toList.any (fun ch => ch = '~') <;> simp
      rw [List.all_eq_true]
      intro ch hch
      rw [List.any_eq_false] at hc2
      simpa using hc2 ch hch
  · have hc : s.toList.any (fun ch => ch = '~') = true := by
      rw [hr]
      simp
    rw [expand, if_pos hc, hr]
    simp [replaceTilde]

/-- C9 witness: expand applied at concrete inputs through the theorem. -/
theorem expand_tilde_witness :
    expand "/h" "xy" = "xy" ∧
    (expand "/h" "x~y").toList.all (fun ch => ch ≠ '~') = true ∧
    (expand "/h" "~y").toList = "/h".toList ++ replaceTilde "/h".toList ['y'] :=
  ⟨(expand_tilde_any_position "/h" "xy").1 (by decide),
   (expand_tilde_any_position "/h" "x~y").2.1 (by decide),
   (expand_tilde_any_position "/h" "~y").2.2 ['y'] (by decide)⟩

/-- C10: mode selection is a total function of the flags with the fixed
precedence dry_run over importFlag over remove over Normal; the clap
conflict declarations accept the dry_run plus importFlag combination,
and that combination dispatches DryRun, which performs no mutation (in
particular no import action) on any tree. -/
theorem mode_selection_precedence :
    (∀ f : Flags,
      (f.mode = Mode.DryRun ↔ f.dry_run = true) ∧
      (f.mode = Mode.Import ↔ (f.dry_run = false ∧ f.importFlag = true)) ∧
      (f.mode = Mode.Remove ↔
        (f.dry_run = false ∧ f.importFlag = false ∧ f.remove = true)) ∧
      (f.mode = Mode.Normal ↔
        (f.dry_run = false ∧ f.importFlag = false ∧ f.remove = false))) ∧
    Flags.conflictsOk ⟨false, true, false, true, false⟩ = true ∧
    (∀ c ign fs,
      mutations (run c (Flags.mode ⟨false, true, false, true, false⟩) ign fs).evs = []) := by
  refine ⟨fun f => ?_, by decide, fun c ign fs => ?_⟩
  · obtain ⟨v, i, ia, d, r⟩ := f
    cases d <;> cases i <;> cases r <;> simp [Flags.mode]
  · have hm : Flags.mode ⟨false, true, false, true, false⟩ = Mode.DryRun := rfl
    rw [hm]
    exact (dryrun_pure c ign fs).2

/-- C10 witness: the selection applied at the concrete configuration
with both dry_run and importFlag set. -/
theorem mode_selection_witness :
    Flags.mode ⟨false, true, false, true, false⟩ = Mode.DryRun ∧
    mutations (run niCfg (Flags.mode ⟨false, true, false, true, false⟩) emptyIgn fsOne).evs
      = [] :=
  ⟨(mode_selection_precedence.1 ⟨false, true, false, true, false⟩).1.2 rfl,
   mode_selection_precedence.2.2 niCfg emptyIgn fsOne⟩

/-- C5 (code bug witness): in interactive Import mode with every prompt
answered no, the copy and the deletion of the source file still happen,
because fs::copy and fs::remove_file run before ask_and_run; only the
final symlink is gated.  The source file s/a is lost and d/a has been
written, so the run is not mutation free. -/
theorem import_interactive_copy_delete_ungated :
    FS.find? (run allNoCfg Mode.Import emptyIgn fsOne).fs ["s", "a"] = none ∧
    FS.find? (run allNoCfg Mode.Import emptyIgn fsOne).fs ["d", "a"]
      = some (Entry.file "x") ∧
    mutations (run allNoCfg Mode.Import emptyIgn fsOne).evs
      = [Event.copied ["s", "a"] ["d", "a"], Event.removeFile ["s", "a"]] := by
  decide

/-- C7 counterexample: with no ignore file at all, the walk of cli.rs
visits a .git directory and its contents, and Normal mode links them;
there is no hard coded .git exclusion in dir_walk (the legacy dotty.rs
filter_entry was dropped). -/
theorem git_dir_excluded_counterexample :
    ["s", ".git"] ∈ walkList fsGit emptyIgn srcP ∧
    ["s", ".git", "config"] ∈ walkList fsGit emptyIgn srcP ∧
    FS.find? (run niCfg Mode.Normal emptyIgn fsGit).fs ["d", ".git", "config"]
      = some (Entry.symlink ["s", ".git", "config"]) := by
  decide

/-- C7 (amended): whether a .git entry is visited depends only on the
ignore rules; when the tree has no ignore files, a .git path satisfying
the ordinary walk conditions is visited like any other entry. -/
theorem git_dir_visited_without_ignore_rules (fs : FS) (src rest2 : Path)
    (h : survives fs emptyIgn src (src ++ ".git" :: rest2) = true) :
    (src ++ ".git" :: rest2) ∈ walkList fs emptyIgn src := by
  have hne : ¬ (src ++ ".git" :: rest2) = src := by
    intro he
    have := congrArg List.length he
    simp at this
  have hsome : (FS.find? fs (src ++ ".git" :: rest2)).isSome = true := by
    rw [survives, if_neg hne] at h
    simp only [Bool.and_eq_true] at h
    exact h.1.1.2
  rw [walkList, List.mem_filter]
  exact ⟨FS.find?_isSome_iff_mem_keys.mp hsome, h⟩

/-- C7 witness: the amended statement applied at the concrete .git tree. -/
theorem git_dir_visited_witness :
    (srcP ++ ".git" :: []) ∈ walkList fsGit emptyIgn srcP :=
  git_dir_visited_without_ignore_rules fsGit srcP [] (by decide)

/-- C8 counterexample: dir_walk does not skip the root entry (cli.rs has
no skip(1), unlike the legacy dotty.rs), so the callback is also invoked
on the source directory itself, with the destination root as its
destination path. -/
theorem dir_walk_excludes_root_counterexample :
    (srcP, destP) ∈ dirWalkEntries fsOne emptyIgn srcP destP := by
  decide

/-- C8 (amended): the walker invokes the callback exactly once per
surviving node reachable from source, including the source directory
itself, and the destination path of every visited pair is destination
joined with the entry path relative to source. -/
theorem dir_walk_visits_each_surviving_node_once (fs : FS) (ign : Path → Bool)
    (src dest : Path) (hnd : (FS.keys fs).Nodup)
    (hroot : (FS.find? fs src).isSome = true) :
    (walkList fs ign src).Nodup ∧
    src ∈ walkList fs ign src ∧
    (∀ p, p ∈ walkList fs ign src ↔ survives fs ign src p = true) ∧
    (∀ pr ∈ dirWalkEntries fs ign src dest,
      src <+: pr.1 ∧ pr.2 = dest ++ pr.1.drop src.length) := by
  have hchar : ∀ p, p ∈ walkList fs ign src ↔ survives fs ign src p = true := by
    intro p
    rw [walkList, List.mem_filter]
    constructor
    · exact fun h => h.2
    · intro h
      refine ⟨?_, h⟩
      by_cases hp : p = src
      · subst hp
        rw [survives, if_pos rfl] at h
        exact FS.find?_isSome_iff_mem_keys.mp h
      · rw [survives, if_neg hp] at h
        simp only [Bool.and_eq_true] at h
        exact FS.find?_isSome_iff_mem_keys.mp h.1.1.2
  refine ⟨List.Nodup.filter _ hnd, ?_, hchar, ?_⟩
  · rw [hchar]
    rw [survives, if_pos rfl]
    exact hroot
  · intro pr hpr
    rw [dirWalkEntries, List.mem_map] at hpr
    obtain ⟨p, hp, hpe⟩ := hpr
    subst hpe
    refine ⟨?_, rfl⟩
    have hs := (hchar p).mp hp
    by_cases hpsrc : p = src
    · subst hpsrc
      exact List.prefix_refl _
    · rw [survives, if_neg hpsrc] at hs
      simp only [Bool.and_eq_true] at hs
      exact of_decide_eq_true hs.1.1.1

theorem FS.not_isDir_of_isFile {fs : FS} {p : Path} (h : FS.isFile fs p = true) :
    FS.isDir fs p = false := by
  rw [FS.isFile] at h
  rw [FS.isDir]
  cases hs : FS.stat fs p with
  | none => simp [hs] at h
  | some e =>
    cases e with
    | file c => rfl
    | dir => simp [hs] at h
    | symlink t => simp [hs] at h

/-- C4 counterexample: the subdirectory entry s/sub is visited by the
DryRun walk, but because its destination d/sub already exists the run
emits no log line at all for it (and none for the root either): DryRun
does not emit one log line per visited entry. -/
theorem dryrun_line_per_entry_counterexample :
    ["s", "sub"] ∈ walkList fsSub emptyIgn srcP ∧
    (run niCfg Mode.DryRun emptyIgn fsSub).evs = [] := by
  decide

/-- C4 (amended): a DryRun run never changes the filesystem and never
emits a mutation event, on every input tree; when every visited entry
resolves to a file or a directory the run succeeds and its log is the
concatenation, in walk order, of the per-entry report: would-create for
a directory entry whose destination is absent, nothing for a directory
entry whose destination exists, would-skip for a file entry whose
destination exists and would-link for a file entry whose destination is
absent.  An entry that is neither aborts the run with an error. -/
theorem dryrun_mode_reports_without_mutation (c : Cfg) (ign : Path → Bool) (fs : FS) :
    (run c Mode.DryRun ign fs).fs = fs ∧
    mutations (run c Mode.DryRun ign fs).evs = [] ∧
    ((walkList fs ign c.src).all (fun p => FS.isFile fs p || FS.isDir fs p) = true →
      (run c Mode.DryRun ign fs).err = none ∧
      (run c Mode.DryRun ign fs).evs
        = (walkList fs ign c.src).flatMap (fun p => (stepDryRun c fs p).evs) ∧
      (∀ p ∈ walkList fs ign c.src,
        (stepDryRun c fs p).evs =
          if FS.isDir fs p = true then
            (if FS.pathExists fs (c.targ p) = true then []
             else [Event.logDryCreate (c.targ p)])
          else if FS.pathExists fs (c.targ p) = true then [Event.logDrySkip (c.targ p)]
          else [Event.logDryLink p (c.targ p)])) := by
  refine ⟨(dryrun_pure c ign fs).1, (dryrun_pure c ign fs).2, fun hall => ?_⟩
  rw [List.all_eq_true] at hall
  have hkind : ∀ p ∈ walkList fs ign c.src,
      FS.isFile fs p = true ∨ FS.isDir fs p = true := by
    intro p hp
    have := hall p hp
    rcases Bool.or_eq_true_iff.mp this with h | h
    · exact Or.inl h
    · exact Or.inr h
  have hrun := runWalk_stateless_events (fun fs2 p => (stepDryRun_pure c fs2 p).1) fs
    (walkList fs ign c.src) (fun p hp => stepDryRun_err_of_kind c fs p (hkind p hp))
  refine ⟨hrun.1, hrun.2, ?_⟩
  intro p hp
  rcases hkind p hp with hf | hd
  · have hd0 := FS.not_isDir_of_isFile hf
    simp only [stepDryRun, hd0, hf]
    by_cases he : FS.pathExists fs (c.targ p) = true <;> simp [he, Out.ok]
  · simp only [stepDryRun, hd]
    by_cases he : FS.pathExists fs (c.targ p) = true <;> simp [he, Out.ok]

/-- C4 witness: the amended DryRun report applied at a concrete tree. -/
theorem dryrun_mode_reports_witness :
    (run niCfg Mode.DryRun emptyIgn fsOne).err = none ∧
    (run niCfg Mode.DryRun emptyIgn fsOne).evs
      = (walkList fsOne emptyIgn niCfg.src).flatMap (fun p => (stepDryRun niCfg fsOne p).evs) :=
  ⟨((dryrun_mode_reports_without_mutation niCfg emptyIgn fsOne).2.2 (by decide)).1,
   ((dryrun_mode_reports_without_mutation niCfg emptyIgn fsOne).2.2 (by decide)).2.1⟩

/-- The Remove callback never errors, and it either leaves the
filesystem untouched or erases exactly its own target, and only when
the unresolved target entry is a symlink whose stored path equals the
corresponding source entry. -/
theorem stepRemove_spec (c : Cfg) (fs : FS) (p : Path) :
    (stepRemove c fs p).err = none ∧
    ((stepRemove c fs p).fs = fs ∨
      (FS.find? fs (c.targ p) = some (Entry.symlink p) ∧
       (stepRemove c fs p).fs = FS.eraseAll fs (c.targ p))) := by
  simp only [stepRemove]
  split
  · cases hm : FS.find? fs (c.targ p) with
    | none => exact ⟨rfl, Or.inl rfl⟩
    | some e =>
      cases e with
      | file s2 => exact ⟨rfl, Or.inl rfl⟩
      | dir => exact ⟨rfl, Or.inl rfl⟩
      | symlink real =>
        dsimp only
        by_cases hr : real = p
        · rw [if_pos hr, ask_and_run]
          by_cases hi : c.interactive = true
          · rw [if_pos hi]
            by_cases ha : c.ans (c.targ p) = true
            · rw [if_pos ha]
              refine ⟨?_, Or.inr ⟨by rw [hr], ?_⟩⟩ <;>
                simp [fsRemoveFile, hm, Out.andThen, Out.ok]
            · rw [if_neg ha]
              exact ⟨rfl, Or.inl rfl⟩
          · rw [if_neg hi]
            refine ⟨?_, Or.inr ⟨by rw [hr], ?_⟩⟩ <;>
              simp [fsRemoveFile, hm, Out.andThen, Out.ok]
        · rw [if_neg hr]
          exact ⟨rfl, Or.inl rfl⟩
  · exact ⟨rfl, Or.inl rfl⟩

theorem runWalk_remove_inv (c : Cfg) :
    ∀ (l : List Path) (fs : FS),
      (runWalk (stepRemove c) fs l).err = none ∧
      ∀ q, FS.find? (runWalk (stepRemove c) fs l).fs q ≠ FS.find? fs q →
        ∃ p, p ∈ l ∧ q = c.targ p ∧ FS.find? fs q = some (Entry.symlink p) ∧
          FS.find? (runWalk (stepRemove c) fs l).fs q = none := by
  intro l
  induction l with
  | nil =>
    intro fs
    exact ⟨rfl, fun q hq => absurd rfl hq⟩
  | cons p rest ih =>
    intro fs
    have hs := stepRemove_spec c fs p
    rw [runWalk_cons_of_err_none hs.1]
    rcases hs.2 with hfs | ⟨hsym, hfs⟩
    · rw [hfs]
      refine ⟨(ih fs).1, fun q hq => ?_⟩
      obtain ⟨p2, hp2, h1, h2, h3⟩ := (ih fs).2 q hq
      exact ⟨p2, List.mem_cons_of_mem _ hp2, h1, h2, h3⟩
    · rw [hfs]
      refine ⟨(ih (FS.eraseAll fs (c.targ p))).1, fun q hq => ?_⟩
      by_cases hq2 : FS.find? (runWalk (stepRemove c) (FS.eraseAll fs (c.targ p)) rest).fs q
          = FS.find? (FS.eraseAll fs (c.targ p)) q
      · rw [hq2] at hq
        by_cases hqt : q = c.targ p
        · subst hqt
          refine ⟨p, List.mem_cons_self _ _, rfl, hsym, ?_⟩
          rw [hq2, FS.find?_eraseAll, if_pos rfl]
        · rw [FS.find?_eraseAll, if_neg hqt] at hq
          exact absurd rfl hq
      · obtain ⟨p2, hp2, h1, h2, h3⟩ := (ih (FS.eraseAll fs (c.targ p))).2 q hq2
        rw [FS.find?_eraseAll] at h2
        by_cases hqt : q = c.targ p
        · rw [if_pos hqt] at h2
          cases h2
        · rw [if_neg hqt] at h2
          exact ⟨p2, List.mem_cons_of_mem _ hp2, h1, h2, h3⟩

/-- C3: a Remove run never fails, and a destination entry is deleted
only when the unresolved destination entry is a symlink whose stored
target equals the corresponding source entry; every other entry — a
regular file of the same name, a retargeted link, a missing link — is
left exactly as it was (in particular regular files survive verbatim). -/
theorem remove_mode_only_unlinks_owned_links (c : Cfg) (ign : Path → Bool) (fs : FS) :
    (run c Mode.Remove ign fs).err = none ∧
    (∀ q, FS.find? (run c Mode.Remove ign fs).fs q ≠ FS.find? fs q →
      ∃ p, p ∈ walkList fs ign c.src ∧ q = c.targ p ∧
        FS.find? fs q = some (Entry.symlink p) ∧
        FS.find? (run c Mode.Remove ign fs).fs q = none) ∧
    (∀ q s2, FS.find? fs q = some (Entry.file s2) →
      FS.find? (run c Mode.Remove ign fs).fs q = some (Entry.file s2)) := by
  have h := runWalk_remove_inv c (walkList fs ign c.src) fs
  refine ⟨h.1, h.2, fun q s2 hq => ?_⟩
  by_cases hch : FS.find? (run c Mode.Remove ign fs).fs q = FS.find? fs q
  · rw [hch, hq]
  · obtain ⟨p, _, _, h2, _⟩ := h.2 q hch
    rw [hq] at h2
    cases h2

/-- C3 witness: the Remove contract applied at a destination holding a
correctly pointing symlink, which the run deletes. -/
theorem remove_mode_only_unlinks_witness :
    ∃ p, p ∈ walkList fsLinked emptyIgn niCfg.src ∧ ["d", "a"] = niCfg.targ p ∧
      FS.find? fsLinked ["d", "a"] = some (Entry.symlink p) ∧
      FS.find? (run niCfg Mode.Remove emptyIgn fsLinked).fs ["d", "a"] = none :=
  (remove_mode_only_unlinks_owned_links niCfg emptyIgn fsLinked).2.1 ["d", "a"] (by decide)

/-- C1 counterexample: the destination d/a holds a regular file, yet a
non-interactive Normal run removes it and replaces it with a symlink to
s/a — create_file overwrites existing destination entries (its prompt
even reads Overwrite). -/
theorem normal_mode_untouched_dest_counterexample :
    FS.find? fsClash ["d", "a"] = some (Entry.file "y") ∧
    FS.find? (run niCfg Mode.Normal emptyIgn fsClash).fs ["d", "a"]
      = some (Entry.symlink ["s", "a"]) ∧
    Event.removeFile ["d", "a"] ∈ (run niCfg Mode.Normal emptyIgn fsClash).evs := by
  decide

/-- C1 (amended): in non-interactive Normal mode, a file entry whose
destination path already exists (and is not a directory) is NOT left
untouched: the destination entry is removed and replaced by a symlink
to the source entry, with a remove and a link recorded.  Only directory
entries with existing destinations are skipped. -/
theorem normal_mode_overwrites_existing_file_dest (c : Cfg) (fs : FS) (p : Path)
    (hni : c.interactive = false)
    (hf : FS.isFile fs p = true)
    (he : FS.pathExists fs (c.targ p) = true)
    (hd : FS.find? fs (c.targ p) ≠ some Entry.dir) :
    (stepNormal c fs p).err = none ∧
    (stepNormal c fs p).fs
      = FS.insert (FS.eraseAll fs (c.targ p)) (c.targ p) (Entry.symlink p) ∧
    FS.find? (stepNormal c fs p).fs (c.targ p) = some (Entry.symlink p) ∧
    (stepNormal c fs p).evs
      = [Event.removeFile (c.targ p), Event.symlinked (c.targ p) p,
         Event.logLink (c.targ p)] := by
  have hdir := FS.not_isDir_of_isFile hf
  have he2 : (FS.stat fs (c.targ p)).isSome = true := by
    rw [FS.pathExists] at he
    exact he
  obtain ⟨e3, hstat⟩ := Option.isSome_iff_exists.mp he2
  obtain ⟨e2, hfind⟩ := FS.find?_some_of_stat_some hstat
  have hferase : FS.find? (FS.eraseAll fs (c.targ p)) (c.targ p) = none := by
    rw [FS.find?_eraseAll, if_pos rfl]
  cases e2 with
  | dir => exact absurd hfind hd
  | file s2 =>
    refine ⟨?_, ?_, ?_, ?_⟩ <;>
      simp [stepNormal, hdir, hf, create_file, ask_and_run, hni, he, fsRemoveFile, hfind,
        fsSymlink, hferase, Out.andThen, Out.ok, FS.find?_insert]
  | symlink t2 =>
    refine ⟨?_, ?_, ?_, ?_⟩ <;>
      simp [stepNormal, hdir, hf, create_file, ask_and_run, hni, he, fsRemoveFile, hfind,
        fsSymlink, hferase, Out.andThen, Out.ok, FS.find?_insert]

/-- C1 witness: the overwrite behaviour applied at the concrete clash
tree. -/
theorem normal_mode_overwrites_witness :
    (stepNormal niCfg fsClash ["s", "a"]).err = none ∧
    FS.find? (stepNormal niCfg fsClash ["s", "a"]).fs (niCfg.targ ["s", "a"])
      = some (Entry.symlink ["s", "a"]) :=
  ⟨(normal_mode_overwrites_existing_file_dest niCfg fsClash ["s", "a"] rfl (by decide)
      (by decide) (by decide)).1,
   (normal_mode_overwrites_existing_file_dest niCfg fsClash ["s", "a"] rfl (by decide)
      (by decide) (by decide)).2.2.1⟩

/-- C6: in non-interactive Import mode, a file entry whose destination
path holds no entry at all (the absent case of the spec; the guard in
the code is target.exists()) has its contents copied to the
destination, the source file deleted, and a symlink created at the
source location pointing at the destination (the link direction
inverts); a file entry whose destination exists is skipped with only a
warning, leaving the filesystem — source file included — exactly as it
was.  (A dangling symlink at the destination also fails the exists()
guard, but there fs::copy writes through the link, so that corner is
outside this statement.) -/
theorem import_mode_semantics (c : Cfg) (fs : FS) (p : Path) (hni : c.interactive = false) :
    (∀ cnt, FS.find? fs p = some (Entry.file cnt) →
      FS.find? fs (c.targ p) = none →
      (stepImport c fs p).err = none ∧
      FS.find? (stepImport c fs p).fs (c.targ p) = some (Entry.file cnt) ∧
      FS.find? (stepImport c fs p).fs p = some (Entry.symlink (c.targ p)) ∧
      (stepImport c fs p).evs = [Event.copied p (c.targ p), Event.removeFile p,
        Event.symlinked p (c.targ p), Event.logLink p]) ∧
    (FS.pathExists fs (c.targ p) = true →
      stepImport c fs p = Out.ok fs [Event.logWarnExist (c.targ p)]) := by
  constructor
  · intro cnt hf ht
    have hstatp := FS.stat_of_file hf
    have hisf : FS.isFile fs p = true := by rw [FS.isFile, hstatp]
    have hisd := FS.not_isDir_of_isFile hisf
    have hex : FS.pathExists fs (c.targ p) = false := by
      rw [FS.pathExists, FS.stat_of_none ht]
      rfl
    have hne : ¬ c.targ p = p := by
      intro h
      rw [h, hf] at ht
      cases ht
    have hfp : finalPath 40 fs (c.targ p) = some (c.targ p) := by
      show finalPath (39 + 1) fs (c.targ p) = some (c.targ p)
      simp [finalPath, ht]
    have hfind2 : FS.find? (FS.insert fs (c.targ p) (Entry.file cnt)) p
        = some (Entry.file cnt) := by
      rw [FS.find?_insert, if_neg (fun h => hne h.symm), hf]
    have hfind3 : FS.find? (FS.eraseAll (FS.insert fs (c.targ p) (Entry.file cnt)) p) p
        = none := by
      rw [FS.find?_eraseAll, if_pos rfl]
    have hex3 : FS.pathExists (FS.eraseAll (FS.insert fs (c.targ p) (Entry.file cnt)) p) p
        = false := by
      rw [FS.pathExists, FS.stat_of_none hfind3]
      rfl
    refine ⟨?_, ?_, ?_, ?_⟩ <;>
      simp [stepImport, hex, ht, hisd, hisf, fsCopy, hstatp, hfp, fsRemoveFile, hfind2,
        create_file, ask_and_run, hni, hex3, fsSymlink, hfind3, Out.andThen, Out.ok,
        FS.find?_insert, FS.find?_eraseAll, hne, hf]
  · intro he
    simp [stepImport, he]

/-- C6 witness: the import semantics applied at the concrete one-file
tree. -/
theorem import_mode_semantics_witness :
    FS.find? (stepImport niCfg fsOne ["s", "a"]).fs (niCfg.targ ["s", "a"])
      = some (Entry.file "x") ∧
    FS.find? (stepImport niCfg fsOne ["s", "a"]).fs ["s", "a"]
      = some (Entry.symlink (niCfg.targ ["s", "a"])) :=
  ⟨((import_mode_semantics niCfg fsOne ["s", "a"] rfl).1 "x" (by decide) (by decide)).2.1,
   ((import_mode_semantics niCfg fsOne ["s", "a"] rfl).1 "x" (by decide) (by decide)).2.2.1⟩

/-- C8 witness: the amended walker contract applied at a concrete tree. -/
theorem dir_walk_contract_witness :
    (walkList fsOne emptyIgn srcP).Nodup ∧ srcP ∈ walkList fsOne emptyIgn srcP :=
  ⟨(dir_walk_visits_each_surviving_node_once fsOne emptyIgn srcP destP (by decide)
      (by decide)).1,
   (dir_walk_visits_each_surviving_node_once fsOne emptyIgn srcP destP (by decide)
      (by decide)).2.1⟩

/-! Path-prefix lemmas for the Normal-mode idempotence analysis. -/

theorem take_prefix_take {α : Type} {l : List α} {m n : Nat} (h : m ≤ n) :
    l.take m <+: l.take n := by
  have h2 := List.take_prefix m (l.take n)
  rw [List.take_take, Nat.min_eq_left h] at h2
  exact h2

theorem src_prefix_take {src p : Path} (h : src <+: p) {k : Nat}
    (hk : src.length ≤ k) : src <+: p.take k := by
  have h1 : src = p.take src.length := List.prefix_iff_eq_take.mp h
  rw [h1]
  exact take_prefix_take hk

theorem src_eq_of_short {src p : Path} (h : src <+: p) (hl : p.length ≤ src.length) :
    src = p := by
  rw [List.prefix_iff_eq_take.mp h, List.take_of_length_le hl]

theorem not_src_prefix_target {src dest : Path} (hsd : ¬ src <+: dest)
    (hds : ¬ dest <+: src) (rel : Path) : ¬ src <+: dest ++ rel := by
  intro h
  have hd : dest <+: dest ++ rel := List.prefix_append _ _
  by_cases hl : src.length ≤ dest.length
  · exact hsd (List.prefix_of_prefix_length_le h hd hl)
  · exact hds (List.prefix_of_prefix_length_le hd h (Nat.le_of_not_le hl))

theorem targ_src (c : Cfg) : c.targ c.src = c.dest := by
  simp [Cfg.targ, List.drop_length]

theorem src_append_drop {src p : Path} (h : src <+: p) :
    src ++ p.drop src.length = p := by
  obtain ⟨t, rfl⟩ := h
  rw [List.drop_left]

theorem targ_inj (c : Cfg) {p q : Path} (hp : c.src <+: p) (hq : c.src <+: q)
    (h : c.targ p = c.targ q) : p = q := by
  have h2 : p.drop c.src.length = q.drop c.src.length := List.append_cancel_left h
  rw [← src_append_drop hp, ← src_append_drop hq, h2]

theorem targ_length (c : Cfg) {p : Path} (hp : c.src <+: p) (hne : p ≠ c.src) :
    c.dest.length < (c.targ p).length := by
  rw [Cfg.targ, List.length_append]
  have h3 : 0 < (p.drop c.src.length).length := by
    rw [List.length_drop]
    rcases Nat.lt_or_ge c.src.length p.length with h2 | h2
    · omega
    · exact absurd (src_eq_of_short hp h2).symm hne
  omega

theorem targ_ne_dest (c : Cfg) {p : Path} (hp : c.src <+: p) (hne : p ≠ c.src) :
    c.targ p ≠ c.dest := by
  intro h
  have h2 := targ_length c hp hne
  rw [h] at h2
  omega

theorem not_src_prefix_targ (c : Cfg) (hsd : ¬ c.src <+: c.dest)
    (hds : ¬ c.dest <+: c.src) (p : Path) : ¬ c.src <+: c.targ p :=
  not_src_prefix_target hsd hds _

/-! Lemmas about srcView, the source side of the filesystem. -/

theorem FS.find?_srcView {src : Path} (fs : FS) {q : Path} (hq : src <+: q) :
    FS.find? (srcView src fs) q = FS.find? fs q := by
  induction fs with
  | nil => rfl
  | cons hd rest ih =>
    obtain ⟨k, e⟩ := hd
    simp only [srcView, List.filter_cons] at *
    by_cases hk : k = q
    · subst hk
      rw [if_pos (decide_eq_true hq)]
      simp [FS.find?]
    · by_cases hp : decide (src <+: k) = true
      · rw [if_pos hp]
        simp only [FS.find?, if_neg hk]
        exact ih
      · rw [if_neg hp]
        simp only [FS.find?, if_neg hk]
        exact ih

theorem srcView_eraseAll {src : Path} (fs : FS) {t : Path} (ht : ¬ src <+: t) :
    srcView src (FS.eraseAll fs t) = srcView src fs := by
  induction fs with
  | nil => rfl
  | cons hd rest ih =>
    obtain ⟨k, e⟩ := hd
    simp only [FS.eraseAll]
    by_cases hk : k = t
    · rw [if_pos hk, ih]
      simp only [srcView, List.filter_cons]
      rw [if_neg (by subst hk; simpa using ht)]
    · rw [if_neg hk]
      simp only [srcView, List.filter_cons] at *
      by_cases hp : decide (src <+: k) = true
      · rw [if_pos hp, if_pos hp, ih]
      · rw [if_neg hp, if_neg hp]
        exact ih

theorem srcView_insert {src : Path} (fs : FS) {t : Path} (e : Entry) (ht : ¬ src <+: t) :
    srcView src (FS.insert fs t e) = srcView src fs := by
  have h1 : srcView src (FS.eraseAll fs t) = srcView src fs := srcView_eraseAll fs ht
  simp only [FS.insert, srcView, List.filter_cons] at *
  rw [if_neg (by simpa using ht)]
  exact h1

theorem srcView_mkdirFold {src : Path} :
    ∀ (l : List Path) (fs : FS), (∀ r ∈ l, ¬ src <+: r) →
      srcView src (mkdirFold fs l) = srcView src fs := by
  intro l
  induction l with
  | nil => intro fs _; rfl
  | cons r rest ih =>
    intro fs hl
    have hr := hl r (List.mem_cons_self _ _)
    have hrest := fun x hx => hl x (List.mem_cons_of_mem _ hx)
    simp only [mkdirFold, List.foldl_cons]
    by_cases hn : (FS.find? fs r).isNone = true
    · rw [if_pos hn]
      have h2 := ih (FS.insert fs r Entry.dir) hrest
      simp only [mkdirFold] at h2
      rw [h2]
      exact srcView_insert fs Entry.dir hr
    · rw [if_neg hn]
      have h2 := ih fs hrest
      simp only [mkdirFold] at h2
      exact h2

theorem find?_mkdirFold :
    ∀ (l : List Path) (fs : FS) (q : Path),
      FS.find? (mkdirFold fs l) q
        = if q ∈ l ∧ FS.find? fs q = none then some Entry.dir else FS.find? fs q := by
  intro l
  induction l with
  | nil =>
    intro fs q
    simp [mkdirFold]
  | cons r rest ih =>
    intro fs q
    simp only [mkdirFold, List.foldl_cons]
    by_cases hn : (FS.find? fs r).isNone = true
    · rw [if_pos hn]
      have hrn : FS.find? fs r = none := Option.isNone_iff_eq_none.mp hn
      have h2 := ih (FS.insert fs r Entry.dir) q
      simp only [mkdirFold] at h2
      rw [h2, FS.find?_insert]
      by_cases hq : q = r
      · subst hq
        simp [hrn]
      · rw [if_neg hq]
        simp [List.mem_cons, hq]
    · rw [if_neg hn]
      have h2 := ih fs q
      simp only [mkdirFold] at h2
      rw [h2]
      have hrs : ¬ FS.find? fs r = none := by
        intro h3
        rw [h3] at hn
        exact hn rfl
      by_cases hq : q = r
      · subst hq
        simp [hrs]
      · simp [List.mem_cons, hq]

/-! Lemmas about survives and walkList. -/

theorem list_all_congr {α : Type} {l : List α} {f g : α → Bool}
    (h : ∀ x ∈ l, f x = g x) : l.all f = l.all g := by
  induction l with
  | nil => rfl
  | cons x rest ih =>
    simp only [List.all_cons]
    rw [h x (List.mem_cons_self _ _), ih (fun y hy => h y (List.mem_cons_of_mem _ hy))]

theorem prefix_of_survives {fs : FS} {ign : Path → Bool} {src p : Path}
    (h : survives fs ign src p = true) : src <+: p := by
  by_cases hp : p = src
  · subst hp
    exact List.prefix_refl _
  · rw [survives, if_neg hp] at h
    simp only [Bool.and_eq_true] at h
    exact of_decide_eq_true h.1.1.1

theorem isSome_of_survives {fs : FS} {ign : Path → Bool} {src p : Path}
    (h : survives fs ign src p = true) : (FS.find? fs p).isSome = true := by
  by_cases hp : p = src
  · subst hp
    rw [survives, if_pos rfl] at h
    exact h
  · rw [survives, if_neg hp] at h
    simp only [Bool.and_eq_true] at h
    exact h.1.1.2

theorem mem_walkList_iff {fs : FS} {ign : Path → Bool} {src p : Path} :
    p ∈ walkList fs ign src ↔ survives fs ign src p = true := by
  rw [walkList, List.mem_filter]
  constructor
  · exact fun h => h.2
  · intro h
    exact ⟨FS.find?_isSome_iff_mem_keys.mp (isSome_of_survives h), h⟩

theorem ancestors_dir_of_survives {fs : FS} {ign : Path → Bool} {src p : Path}
    (h : survives fs ign src p = true) {k : Nat} (hk1 : src.length < k)
    (hk2 : k < p.length) : FS.find? fs (p.take k) = some Entry.dir := by
  have hp : ¬ p = src := by
    intro he
    subst he
    omega
  rw [survives, if_neg hp] at h
  simp only [Bool.and_eq_true] at h
  have hall := h.1.2
  rw [List.all_eq_true] at hall
  have hmem : p.take k ∈ betweenPrefixes src p := by
    rw [betweenPrefixes, List.mem_map]
    refine ⟨k, ?_, rfl⟩
    rw [List.mem_filter]
    exact ⟨List.mem_range.mpr hk2, decide_eq_true hk1⟩
  exact of_decide_eq_true (hall _ hmem)

theorem survives_congr {fsa fsb : FS} {src : Path}
    (h : ∀ q, src <+: q → FS.find? fsa q = FS.find? fsb q) (ign : Path → Bool)
    (p : Path) : survives fsa ign src p = survives fsb ign src p := by
  by_cases hp : p = src
  · subst hp
    rw [survives, survives, if_pos rfl, if_pos rfl, h _ (List.prefix_refl _)]
  · rw [survives, survives, if_neg hp, if_neg hp]
    by_cases hpre : src <+: p
    · rw [h p hpre]
      have hall : (betweenPrefixes src p).all
            (fun q => decide (FS.find? fsa q = some Entry.dir))
          = (betweenPrefixes src p).all
            (fun q => decide (FS.find? fsb q = some Entry.dir)) := by
        apply list_all_congr
        intro q hq
        rw [betweenPrefixes, List.mem_map] at hq
        obtain ⟨k, hk, rfl⟩ := hq
        rw [List.mem_filter] at hk
        have hk2 : src.length ≤ k := Nat.le_of_lt (of_decide_eq_true hk.2)
        rw [h _ (src_prefix_take hpre hk2)]
      rw [hall]
    · simp [hpre]

theorem keys_filter_srcView {src : Path} (P : Path → Bool)
    (hP : ∀ p, P p = true → src <+: p) :
    ∀ fs : FS, (FS.keys fs).filter P = (FS.keys (srcView src fs)).filter P := by
  intro fs
  induction fs with
  | nil => rfl
  | cons hd rest ih =>
    obtain ⟨k, e⟩ := hd
    by_cases hPk : P k = true
    · have hpre : src <+: k := hP k hPk
      have hview : srcView src ((k, e) :: rest) = (k, e) :: srcView src rest := by
        simp only [srcView, List.filter_cons]
        rw [if_pos (decide_eq_true hpre)]
      rw [hview]
      simp only [FS.keys, List.map_cons, List.filter_cons]
      rw [if_pos hPk, if_pos hPk]
      rw [FS.keys] at ih
      rw [ih]
      rfl
    · by_cases hpre : decide (src <+: k) = true
      · have hview : srcView src ((k, e) :: rest) = (k, e) :: srcView src rest := by
          simp only [srcView, List.filter_cons]
          rw [if_pos hpre]
        rw [hview]
        simp only [FS.keys, List.map_cons, List.filter_cons]
        rw [if_neg hPk, if_neg hPk]
        exact ih
      · have hview : srcView src ((k, e) :: rest) = srcView src rest := by
          simp only [srcView, List.filter_cons]
          rw [if_neg hpre]
        rw [hview]
        simp only [FS.keys, List.map_cons, List.filter_cons]
        rw [if_neg hPk]
        exact ih

theorem walkList_eq_of_srcView {fsa fsb : FS} {src : Path}
    (h : srcView src fsa = srcView src fsb) (ign : Path → Bool) :
    walkList fsa ign src = walkList fsb ign src := by
  have hfind : ∀ q, src <+: q → FS.find? fsa q = FS.find? fsb q := by
    intro q hq
    rw [← FS.find?_srcView fsa hq, h, FS.find?_srcView fsb hq]
  have hsurv : ∀ p, survives fsa ign src p = survives fsb ign src p :=
    survives_congr hfind ign
  rw [walkList, walkList]
  rw [List.filter_congr (fun p _ => hsurv p)]
  have hP : ∀ p, survives fsb ign src p = true → src <+: p :=
    fun p hp => prefix_of_survives hp
  rw [keys_filter_srcView _ hP fsa, keys_filter_srcView _ hP fsb, h]

/-! Bridging the source side between filesystems with equal srcView. -/

theorem not_symlink_src {fs : FS} {src q : Path} (hnl : noSrcLinks fs src = true)
    (hq : src <+: q) : ∀ u, FS.find? fs q ≠ some (Entry.symlink u) := by
  intro u he
  have hm := FS.find?_mem he
  rw [noSrcLinks, List.all_eq_true] at hnl
  have h2 := hnl _ hm
  simp only [decide_eq_true hq] at h2
  simp at h2

theorem stat_plain {fs : FS} {src q : Path} (hnl : noSrcLinks fs src = true)
    (hq : src <+: q) : FS.stat fs q = FS.find? fs q :=
  FS.resolveN_of_plain (not_symlink_src hnl hq) (by omega)

theorem srcSide_bridge {c : Cfg} {fs0 fsc : FS}
    (hA : srcView c.src fsc = srcView c.src fs0) (hnl : noSrcLinks fs0 c.src = true)
    {q : Path} (hq : c.src <+: q) :
    FS.find? fsc q = FS.find? fs0 q ∧ FS.stat fsc q = FS.stat fs0 q := by
  have hf : FS.find? fsc q = FS.find? fs0 q := by
    rw [← FS.find?_srcView fsc hq, hA, FS.find?_srcView fs0 hq]
  refine ⟨hf, ?_⟩
  have hns : ∀ u, FS.find? fsc q ≠ some (Entry.symlink u) := by
    rw [hf]
    exact not_symlink_src hnl hq
  rw [FS.stat, FS.resolveN_of_plain hns (by omega), hf, ← stat_plain hnl hq]

theorem FS.not_isFile_of_isDir {fs : FS} {p : Path} (h : FS.isDir fs p = true) :
    FS.isFile fs p = false := by
  rw [FS.isDir] at h
  rw [FS.isFile]
  cases hs : FS.stat fs p with
  | none => simp [hs] at h
  | some e =>
    cases e with
    | dir => rfl
    | file c => simp [hs] at h
    | symlink t => simp [hs] at h

theorem find?_file_of_isFile_plain {fs : FS} {src p : Path}
    (hnl : noSrcLinks fs src = true) (hp : src <+: p) (h : FS.isFile fs p = true) :
    ∃ s, FS.find? fs p = some (Entry.file s) := by
  rw [FS.isFile, stat_plain hnl hp] at h
  cases he : FS.find? fs p with
  | none => rw [he] at h; simp at h
  | some e =>
    cases e with
    | file s => exact ⟨s, rfl⟩
    | dir => rw [he] at h; simp at h
    | symlink t => rw [he] at h; simp at h

/-! Outcome of the two gated filesystem actions in non-interactive runs. -/

theorem create_dir_mkdir_spec {c : Cfg} {fsc : FS} {t : Path}
    (hni : c.interactive = false) :
    (create_dir c fsc t).err = none ∧
    (create_dir c fsc t).fs = mkdirFold fsc (pathPrefixes t) := by
  constructor <;> simp [create_dir, ask_and_run, hni, fsMkdirAll, Out.andThen, Out.ok]

theorem create_file_overwrite_spec {c : Cfg} {fsc : FS} {p t : Path}
    (hni : c.interactive = false)
    (hok : (FS.pathExists fsc t = false ∧ FS.find? fsc t = none) ∨
           (FS.pathExists fsc t = true ∧ ∃ e, FS.find? fsc t = some e ∧ e ≠ Entry.dir)) :
    (create_file c fsc p t).err = none ∧
    ((create_file c fsc p t).fs = FS.insert fsc t (Entry.symlink p) ∨
     (create_file c fsc p t).fs = FS.insert (FS.eraseAll fsc t) t (Entry.symlink p)) ∧
    (∀ q, FS.find? (create_file c fsc p t).fs q
        = if q = t then some (Entry.symlink p) else FS.find? fsc q) := by
  rcases hok with ⟨hex, hnone⟩ | ⟨hex, e, he, hne⟩
  · have hfs : (create_file c fsc p t).fs = FS.insert fsc t (Entry.symlink p) := by
      simp [create_file, ask_and_run, hni, hex, fsSymlink, hnone, Out.andThen, Out.ok]
    refine ⟨?_, Or.inl hfs, ?_⟩
    · simp [create_file, ask_and_run, hni, hex, fsSymlink, hnone, Out.andThen, Out.ok]
    · intro q
      rw [hfs, FS.find?_insert]
  · have hrm : fsRemoveFile fsc t = ⟨FS.eraseAll fsc t, [Event.removeFile t], none⟩ := by
      cases e with
      | file s => simp [fsRemoveFile, he]
      | dir => exact absurd rfl hne
      | symlink u => simp [fsRemoveFile, he]
    have hnone2 : FS.find? (FS.eraseAll fsc t) t = none := by
      rw [FS.find?_eraseAll, if_pos rfl]
    have hfs : (create_file c fsc p t).fs
        = FS.insert (FS.eraseAll fsc t) t (Entry.symlink p) := by
      simp [create_file, ask_and_run, hni, hex, hrm, fsSymlink, hnone2, Out.andThen, Out.ok]
    refine ⟨?_, Or.inr hfs, ?_⟩
    · simp [create_file, ask_and_run, hni, hex, hrm, fsSymlink, hnone2, Out.andThen, Out.ok]
    · intro q
      rw [hfs, FS.find?_insert, FS.find?_eraseAll]
      by_cases hq : q = t <;> simp [hq]

/-! Facts about pathPrefixes. -/

theorem self_mem_pathPrefixes {t : Path} (ht : 0 < t.length) : t ∈ pathPrefixes t := by
  rw [pathPrefixes, List.mem_map]
  refine ⟨t.length - 1, List.mem_range.mpr (by omega), ?_⟩
  rw [show t.length - 1 + 1 = t.length by omega, List.take_length]

theorem mem_pathPrefixes_spec {t r : Path} (h : r ∈ pathPrefixes t) :
    r <+: t ∧ 0 < r.length := by
  rw [pathPrefixes, List.mem_map] at h
  obtain ⟨k, hk, rfl⟩ := h
  rw [List.mem_range] at hk
  refine ⟨List.take_prefix _ _, ?_⟩
  have h1 : min (k + 1) t.length = k + 1 := Nat.min_eq_left (by omega)
  rw [List.length_take, h1]
  omega

/-- Directory classification of an ancestor entry: if the target of p2
is a prefix of the target of the directory entry p, and p2 is a visited
entry other than the root, then p2 is itself a directory entry. -/
theorem isDir_of_targ_prefix {c : Cfg} {ign : Path → Bool} {fs0 : FS}
    {p p2 : Path} (hp : p ∈ walkList fs0 ign c.src) (hdirp : FS.isDir fs0 p = true)
    (hp2 : p2 ∈ walkList fs0 ign c.src)
    (hpre2 : c.targ p2 <+: c.targ p) (hne2 : p2 ≠ c.src) :
    FS.isDir fs0 p2 = true := by
  have hs := mem_walkList_iff.mp hp
  have hs2 := mem_walkList_iff.mp hp2
  have hpp := prefix_of_survives hs
  have hpp2 := prefix_of_survives hs2
  have hdp : p2.drop c.src.length <+: p.drop c.src.length :=
    (List.prefix_append_right_inj c.dest).mp hpre2
  have hp2p : p2 <+: p := by
    rw [← src_append_drop hpp, ← src_append_drop hpp2]
    exact (List.prefix_append_right_inj c.src).mpr hdp
  by_cases hq : p2 = p
  · rw [hq]
    exact hdirp
  · have hlen2 : c.src.length < p2.length := by
      rcases Nat.lt_or_ge c.src.length p2.length with h | h
      · exact h
      · exact absurd (src_eq_of_short hpp2 h).symm hne2
    have hlenp : p2.length < p.length := by
      rcases Nat.lt_or_ge p2.length p.length with h | h
      · exact h
      · have h2 : p2 = p := by
          rw [List.prefix_iff_eq_take.mp hp2p, List.take_of_length_le h]
        exact absurd h2 hq
    have htake : p2 = p.take p2.length := List.prefix_iff_eq_take.mp hp2p
    have hdir2 := ancestors_dir_of_survives hs (k := p2.length) hlen2 hlenp
    rw [← htake] at hdir2
    rw [FS.isDir, FS.stat_of_dir hdir2]

/-- One non-interactive Normal-mode callback step: it cannot fail, it
preserves the run invariant, it establishes the postcondition of its
own entry, and it preserves postconditions already established. -/
theorem stepNormal_inv {c : Cfg} {ign : Path → Bool} {fs0 : FS}
    (hni : c.interactive = false) (hsrc : FS.find? fs0 c.src = some Entry.dir)
    (hsd : ¬ c.src <+: c.dest) (hds : ¬ c.dest <+: c.src)
    (hnl : noSrcLinks fs0 c.src = true)
    {fsc : FS} {p : Path} (hpw : p ∈ walkList fs0 ign c.src)
    (hpc : entryCompat fs0 c p = true) (hinv : normalInv c ign fs0 fsc) :
    (stepNormal c fsc p).err = none ∧
    normalInv c ign fs0 (stepNormal c fsc p).fs ∧
    postNormal c fs0 (stepNormal c fsc p).fs p ∧
    (∀ q, c.src <+: q → postNormal c fs0 fsc q →
      postNormal c fs0 (stepNormal c fsc p).fs q) := by
  obtain ⟨hA, hC, hB⟩ := hinv
  have hsurv := mem_walkList_iff.mp hpw
  have hpre : c.src <+: p := prefix_of_survives hsurv
  have hbr := srcSide_bridge hA hnl hpre
  have hdc : FS.isDir fsc p = FS.isDir fs0 p := by
    rw [FS.isDir, FS.isDir, hbr.2]
  have hfc : FS.isFile fsc p = FS.isFile fs0 p := by
    rw [FS.isFile, FS.isFile, hbr.2]
  by_cases hdir : FS.isDir fs0 p = true
  · -- directory entry
    have hfile0 : FS.isFile fs0 p = false := FS.not_isFile_of_isDir hdir
    have hpostd : ∀ fsx : FS, FS.find? fsx (c.targ p) = some Entry.dir →
        postNormal c fs0 fsx p := by
      intro fsx hx
      refine ⟨fun h => ?_, fun _ => hx⟩
      rw [h] at hfile0
      cases hfile0
    -- does the destination entry already exist as a directory?
    cases hcase : FS.find? fsc (c.targ p) with
    | some e2 =>
      -- some entry is present; show it must be a directory
      have hfd : FS.find? fsc (c.targ p) = some Entry.dir := by
        by_cases hps : p = c.src
        · rw [hps, targ_src] at hcase ⊢
          rw [hC]
        · rcases hB p hpw with horig | ⟨hf2, _⟩ | ⟨_, hd2⟩
          · have hcompat2 := hpc
            rw [entryCompat, if_neg hps,
              if_neg (by rw [hfile0]; exact Bool.false_ne_true), if_pos hdir] at hcompat2
            rw [horig] at hcase
            cases e2 with
            | dir => rw [horig, hcase]
            | file s => rw [hcase] at hcompat2; simp at hcompat2
            | symlink r => rw [hcase] at hcompat2; simp at hcompat2
          · rw [hf2] at hfile0
            cases hfile0
          · exact hd2
      have hex : FS.pathExists fsc (c.targ p) = true := by
        rw [FS.pathExists, FS.stat_of_dir hfd]
        rfl
      have hstep : stepNormal c fsc p = Out.ok fsc [] := by
        simp [stepNormal, hdc, hdir, hex]
      rw [hstep]
      exact ⟨rfl, ⟨hA, hC, hB⟩, hpostd fsc hfd, fun q _ hq => hq⟩
    | none =>
      -- absent: p cannot be the source root (its destination is a dir)
      have hps : p ≠ c.src := by
        intro h2
        rw [h2, targ_src, hC] at hcase
        cases hcase
      have hex : FS.pathExists fsc (c.targ p) = false := by
        rw [FS.pathExists, FS.stat_of_none hcase]
        rfl
      have hstep1 : stepNormal c fsc p = create_dir c fsc (c.targ p) := by
        simp [stepNormal, hdc, hdir, hex]
      have hcd := @create_dir_mkdir_spec c fsc (c.targ p) hni
      have hrw : (stepNormal c fsc p).fs = mkdirFold fsc (pathPrefixes (c.targ p)) := by
        rw [hstep1, hcd.2]
      have hnp : ∀ r ∈ pathPrefixes (c.targ p), ¬ c.src <+: r := by
        intro r hr hcontra
        exact not_src_prefix_targ c hsd hds p
          (hcontra.trans (mem_pathPrefixes_spec hr).1)
      refine ⟨by rw [hstep1]; exact hcd.1, ⟨?_, ?_, ?_⟩, ?_, ?_⟩
      · rw [hrw, srcView_mkdirFold _ fsc hnp, hA]
      · rw [hrw, find?_mkdirFold]
        rw [if_neg (fun h => by
          obtain ⟨h1, h2⟩ := h
          rw [hC] at h2
          exact Option.noConfusion h2)]
        exact hC
      · intro p2 hp2w
        rw [hrw, find?_mkdirFold]
        by_cases hcond : c.targ p2 ∈ pathPrefixes (c.targ p)
            ∧ FS.find? fsc (c.targ p2) = none
        · rw [if_pos hcond]
          right; right
          refine ⟨?_, rfl⟩
          have hns2 : p2 ≠ c.src := by
            intro h2
            have h3 := hcond.2
            rw [h2, targ_src, hC] at h3
            exact Option.noConfusion h3
          exact isDir_of_targ_prefix hpw hdir hp2w
            (mem_pathPrefixes_spec hcond.1).1 hns2
        · rw [if_neg hcond]
          exact hB p2 hp2w
      · refine ⟨fun h => ?_, fun _ => ?_⟩
        · rw [h] at hfile0
          cases hfile0
        · rw [hrw, find?_mkdirFold]
          have hlen : 0 < (c.targ p).length := by
            have h2 := targ_length c hpre hps
            omega
          rw [if_pos ⟨self_mem_pathPrefixes hlen, hcase⟩]
      · intro q hqpre hq
        obtain ⟨hqf, hqd⟩ := hq
        constructor
        · intro hf2
          have h2 := hqf hf2
          rw [hrw, find?_mkdirFold]
          rw [if_neg (fun hcond => by
            rw [h2] at hcond
            exact Option.noConfusion hcond.2)]
          exact h2
        · intro hd3
          have h2 := hqd hd3
          rw [hrw, find?_mkdirFold]
          rw [if_neg (fun hcond => by
            rw [h2] at hcond
            exact Option.noConfusion hcond.2)]
          exact h2
  · -- not a directory entry
    have hdir0 : FS.isDir fs0 p = false := by
      revert hdir
      cases FS.isDir fs0 p <;> simp
    by_cases hfile : FS.isFile fs0 p = true
    · -- file entry
      have hps : p ≠ c.src := by
        intro h2
        rw [FS.isFile, h2, FS.stat_of_dir hsrc] at hfile
        simp at hfile
      obtain ⟨s0, hp0⟩ := find?_file_of_isFile_plain hnl hpre hfile
      have hpc2 : FS.find? fsc p = some (Entry.file s0) := by
        rw [hbr.1, hp0]
      have hok : (FS.pathExists fsc (c.targ p) = false
            ∧ FS.find? fsc (c.targ p) = none) ∨
          (FS.pathExists fsc (c.targ p) = true
            ∧ ∃ e, FS.find? fsc (c.targ p) = some e ∧ e ≠ Entry.dir) := by
        rcases hB p hpw with horig | ⟨_, hl2⟩ | ⟨hd2, _⟩
        · have hcompat2 := hpc
          rw [entryCompat, if_neg hps, if_pos hfile] at hcompat2
          cases hft : FS.find? fs0 (c.targ p) with
          | none =>
            left
            have hfn : FS.find? fsc (c.targ p) = none := by rw [horig, hft]
            refine ⟨?_, hfn⟩
            rw [FS.pathExists, FS.stat_of_none hfn]
            rfl
          | some e =>
            cases e with
            | dir =>
              rw [hft] at hcompat2
              simp at hcompat2
            | file s =>
              right
              have hff : FS.find? fsc (c.targ p) = some (Entry.file s) := by
                rw [horig, hft]
              refine ⟨?_, Entry.file s, hff, fun h => Entry.noConfusion h⟩
              rw [FS.pathExists, FS.stat_of_file hff]
              rfl
            | symlink r =>
              rw [hft] at hcompat2
              simp only [Bool.and_eq_true, decide_eq_true_eq] at hcompat2
              obtain ⟨hrpre, hftfile⟩ := hcompat2
              have hfsct : FS.find? fsc (c.targ p) = some (Entry.symlink r) := by
                rw [horig, hft]
              have hr0 : ∃ s1, FS.find? fs0 r = some (Entry.file s1) := by
                rw [FS.isFile, FS.stat_symlink hft,
                  FS.resolveN_of_plain (not_symlink_src hnl hrpre) (by omega)] at hftfile
                cases he2 : FS.find? fs0 r with
                | none => rw [he2] at hftfile; simp at hftfile
                | some e2 =>
                  cases e2 with
                  | file s1 => exact ⟨s1, rfl⟩
                  | dir => rw [he2] at hftfile; simp at hftfile
                  | symlink u => rw [he2] at hftfile; simp at hftfile
              obtain ⟨s1, hr0⟩ := hr0
              have hrc : FS.find? fsc r = some (Entry.file s1) := by
                rw [(srcSide_bridge hA hnl hrpre).1, hr0]
              have hstatc : FS.stat fsc (c.targ p) = some (Entry.file s1) := by
                rw [FS.stat_symlink hfsct,
                  FS.resolveN_of_plain (fun u hu => by rw [hrc] at hu; simp at hu)
                    (by omega), hrc]
              right
              refine ⟨?_, Entry.symlink r, hfsct, fun h => Entry.noConfusion h⟩
              rw [FS.pathExists, hstatc]
              rfl
        · right
          have hstatc : FS.stat fsc (c.targ p) = some (Entry.file s0) := by
            rw [FS.stat_symlink hl2,
              FS.resolveN_of_plain (fun u hu => by rw [hpc2] at hu; simp at hu)
                (by omega), hpc2]
          refine ⟨?_, Entry.symlink p, hl2, fun h => Entry.noConfusion h⟩
          rw [FS.pathExists, hstatc]
          rfl
        · rw [hd2] at hdir0
          cases hdir0
      have hdf : FS.isDir fsc p = false := hdc.trans hdir0
      have hff : FS.isFile fsc p = true := hfc.trans hfile
      have hstep1 : stepNormal c fsc p = create_file c fsc p (c.targ p) := by
        simp [stepNormal, hdf, hff]
      have hcf := @create_file_overwrite_spec c fsc p (c.targ p) hni hok
      have hnt : ¬ c.src <+: c.targ p := not_src_prefix_targ c hsd hds p
      refine ⟨by rw [hstep1]; exact hcf.1, ⟨?_, ?_, ?_⟩, ?_, ?_⟩
      · rcases hcf.2.1 with h2 | h2
        · rw [hstep1, h2, srcView_insert _ _ hnt]
          exact hA
        · rw [hstep1, h2, srcView_insert _ _ hnt, srcView_eraseAll fsc hnt]
          exact hA
      · rw [hstep1, hcf.2.2 c.dest]
        rw [if_neg (fun h => targ_ne_dest c hpre hps h.symm)]
        exact hC
      · intro p2 hp2w
        rw [hstep1, hcf.2.2]
        by_cases hqt : c.targ p2 = c.targ p
        · rw [if_pos hqt]
          have hp2p : p2 = p :=
            targ_inj c (prefix_of_survives (mem_walkList_iff.mp hp2w)) hpre hqt
          right; left
          exact ⟨by rw [hp2p]; exact hfile, by rw [hp2p]⟩
        · rw [if_neg hqt]
          exact hB p2 hp2w
      · refine ⟨fun _ => ?_, fun h => ?_⟩
        · rw [hstep1, hcf.2.2, if_pos rfl]
        · rw [hdir0] at h
          cases h
      · intro q hqpre hq
        obtain ⟨hqf, hqd⟩ := hq
        constructor
        · intro hf2
          rw [hstep1, hcf.2.2]
          by_cases hqt : c.targ q = c.targ p
          · have h4 : q = p := targ_inj c hqpre hpre hqt
            rw [if_pos hqt, h4]
          · rw [if_neg hqt]
            exact hqf hf2
        · intro hd3
          rw [hstep1, hcf.2.2]
          by_cases hqt : c.targ q = c.targ p
          · have h4 : q = p := targ_inj c hqpre hpre hqt
            rw [h4] at hd3
            rw [hd3] at hdir0
            cases hdir0
          · rw [if_neg hqt]
            exact hqd hd3
    · -- neither file nor directory: the callback does nothing
      have hfile0 : FS.isFile fs0 p = false := by
        revert hfile
        cases FS.isFile fs0 p <;> simp
      have hdf : FS.isDir fsc p = false := hdc.trans hdir0
      have hff : FS.isFile fsc p = false := hfc.trans hfile0
      have hstep : stepNormal c fsc p = Out.ok fsc [] := by
        simp [stepNormal, hdf, hff]
      rw [hstep]
      refine ⟨rfl, ⟨hA, hC, hB⟩, ⟨fun h => ?_, fun h => ?_⟩, fun q _ hq => hq⟩
      · rw [h] at hfile0
        cases hfile0
      · rw [h] at hdir0
        cases hdir0

/-- Folding the Normal callback over walk entries from any state
satisfying the invariant: no error, the invariant holds at the end,
every processed entry's postcondition holds, and postconditions already
established persist. -/
theorem runWalk_normal_inv {c : Cfg} {ign : Path → Bool} {fs0 : FS}
    (hni : c.interactive = false) (hsrc : FS.find? fs0 c.src = some Entry.dir)
    (hsd : ¬ c.src <+: c.dest) (hds : ¬ c.dest <+: c.src)
    (hnl : noSrcLinks fs0 c.src = true) :
    ∀ (l : List Path),
      (∀ p ∈ l, p ∈ walkList fs0 ign c.src ∧ entryCompat fs0 c p = true) →
      ∀ fsc, normalInv c ign fs0 fsc →
        (runWalk (stepNormal c) fsc l).err = none ∧
        normalInv c ign fs0 (runWalk (stepNormal c) fsc l).fs ∧
        (∀ p ∈ l, postNormal c fs0 (runWalk (stepNormal c) fsc l).fs p) ∧
        (∀ q, c.src <+: q → postNormal c fs0 fsc q →
          postNormal c fs0 (runWalk (stepNormal c) fsc l).fs q) := by
  intro l
  induction l with
  | nil =>
    intro _ fsc hinv
    exact ⟨rfl, hinv, fun p hp => absurd hp (List.not_mem_nil p), fun q _ hq => hq⟩
  | cons p rest ih =>
    intro hl fsc hinv
    have hp := hl p (List.mem_cons_self _ _)
    have hstep := stepNormal_inv hni hsrc hsd hds hnl hp.1 hp.2 hinv
    rw [runWalk_cons_of_err_none hstep.1]
    have hrest := ih (fun x hx => hl x (List.mem_cons_of_mem _ hx))
      (stepNormal c fsc p).fs hstep.2.1
    refine ⟨hrest.1, hrest.2.1, ?_, ?_⟩
    · intro p2 hp2
      rcases List.mem_cons.mp hp2 with h2 | h2
      · subst h2
        exact hrest.2.2.2 p2 (prefix_of_survives (mem_walkList_iff.mp hp.1))
          hstep.2.2.1
      · exact hrest.2.2.1 p2 h2
    · intro q hq hpost
      exact hrest.2.2.2 q hq (hstep.2.2.2 q hq hpost)

/-- A second Normal run over a filesystem fs1 that already satisfies
every entry's postcondition re-links file entries in place and skips
directory entries: the state never moves away from fs1. -/
theorem runWalk_normal_requiv {c : Cfg} {ign : Path → Bool} {fs0 fs1 : FS}
    (hni : c.interactive = false)
    (hnl : noSrcLinks fs0 c.src = true)
    (hA : srcView c.src fs1 = srcView c.src fs0) :
    ∀ (l : List Path),
      (∀ p ∈ l, p ∈ walkList fs0 ign c.src ∧ postNormal c fs0 fs1 p) →
      ∀ fsc, FS.Equiv fsc fs1 →
        (runWalk (stepNormal c) fsc l).err = none ∧
        FS.Equiv (runWalk (stepNormal c) fsc l).fs fs1 := by
  intro l
  induction l with
  | nil =>
    intro _ fsc heq
    exact ⟨rfl, heq⟩
  | cons p rest ih =>
    intro hl fsc heq
    obtain ⟨hpmem, hppost⟩ := hl p (List.mem_cons_self _ _)
    have hpre := prefix_of_survives (mem_walkList_iff.mp hpmem)
    have hbrc : ∀ r, c.src <+: r → FS.find? fsc r = FS.find? fs0 r := by
      intro r hr
      rw [heq r]
      exact (srcSide_bridge hA hnl hr).1
    have hstatc : FS.stat fsc p = FS.stat fs0 p := by
      rw [FS.stat,
        FS.resolveN_of_plain
          (fun u hu => by rw [hbrc p hpre] at hu; exact not_symlink_src hnl hpre u hu)
          (by omega),
        hbrc p hpre, ← stat_plain hnl hpre]
    have hdc : FS.isDir fsc p = FS.isDir fs0 p := by
      rw [FS.isDir, FS.isDir, hstatc]
    have hfc : FS.isFile fsc p = FS.isFile fs0 p := by
      rw [FS.isFile, FS.isFile, hstatc]
    have hcont := ih (fun x hx => hl x (List.mem_cons_of_mem _ hx))
    by_cases hdir : FS.isDir fs0 p = true
    · have hfd : FS.find? fsc (c.targ p) = some Entry.dir := by
        rw [heq _]
        exact hppost.2 hdir
      have hex : FS.pathExists fsc (c.targ p) = true := by
        rw [FS.pathExists, FS.stat_of_dir hfd]
        rfl
      have hstep : stepNormal c fsc p = Out.ok fsc [] := by
        simp [stepNormal, hdc, hdir, hex]
      have herr : (stepNormal c fsc p).err = none := by
        rw [hstep]
        rfl
      rw [runWalk_cons_of_err_none herr]
      have h2 := hcont (stepNormal c fsc p).fs (by rw [hstep]; exact heq)
      exact ⟨h2.1, h2.2⟩
    · by_cases hfile : FS.isFile fs0 p = true
      · have hl2 : FS.find? fsc (c.targ p) = some (Entry.symlink p) := by
          rw [heq _]
          exact hppost.1 hfile
        obtain ⟨s0, hp0⟩ := find?_file_of_isFile_plain hnl hpre hfile
        have hpc2 : FS.find? fsc p = some (Entry.file s0) := by
          rw [hbrc p hpre, hp0]
        have hstatt : FS.stat fsc (c.targ p) = some (Entry.file s0) := by
          rw [FS.stat_symlink hl2,
            FS.resolveN_of_plain (fun u hu => by rw [hpc2] at hu; simp at hu)
              (by omega), hpc2]
        have hok : (FS.pathExists fsc (c.targ p) = false
              ∧ FS.find? fsc (c.targ p) = none) ∨
            (FS.pathExists fsc (c.targ p) = true
              ∧ ∃ e, FS.find? fsc (c.targ p) = some e ∧ e ≠ Entry.dir) := by
          right
          refine ⟨?_, Entry.symlink p, hl2, fun h => Entry.noConfusion h⟩
          rw [FS.pathExists, hstatt]
          rfl
        have hcf := @create_file_overwrite_spec c fsc p (c.targ p) hni hok
        have hdf : FS.isDir fsc p = false := by
          rw [hdc]
          revert hdir
          cases FS.isDir fs0 p <;> simp
        have hff : FS.isFile fsc p = true := hfc.trans hfile
        have hstep1 : stepNormal c fsc p = create_file c fsc p (c.targ p) := by
          simp [stepNormal, hdf, hff]
        have herr : (stepNormal c fsc p).err = none := by
          rw [hstep1]
          exact hcf.1
        rw [runWalk_cons_of_err_none herr]
        have heq2 : FS.Equiv (stepNormal c fsc p).fs fs1 := by
          intro r
          rw [hstep1, hcf.2.2 r]
          by_cases hr : r = c.targ p
          · rw [if_pos hr, hr, ← heq _, hl2]
          · rw [if_neg hr]
            exact heq r
        have h2 := hcont (stepNormal c fsc p).fs heq2
        exact ⟨h2.1, h2.2⟩
      · have hdf : FS.isDir fsc p = false := by
          rw [hdc]
          revert hdir
          cases FS.isDir fs0 p <;> simp
        have hff : FS.isFile fsc p = false := by
          rw [hfc]
          revert hfile
          cases FS.isFile fs0 p <;> simp
        have hstep : stepNormal c fsc p = Out.ok fsc [] := by
          simp [stepNormal, hdf, hff]
        have herr : (stepNormal c fsc p).err = none := by
          rw [hstep]
          rfl
        rw [runWalk_cons_of_err_none herr]
        have h2 := hcont (stepNormal c fsc p).fs (by rw [hstep]; exact heq)
        exact ⟨h2.1, h2.2⟩

/-- C2 counterexample: after a first Normal run on a one-file tree the
second run is NOT mutation free: it removes the existing destination
symlink and creates it again (create_file's overwrite path), so the
claim that the second run performs zero filesystem mutations is false. -/
theorem normal_rerun_zero_mutations_counterexample :
    (run niCfg Mode.Normal emptyIgn fsOne).err = none ∧
    mutations (run niCfg Mode.Normal emptyIgn
        (run niCfg Mode.Normal emptyIgn fsOne).fs).evs
      = [Event.removeFile ["d", "a"], Event.symlinked ["d", "a"] ["s", "a"]] := by
  decide

/-- C2 (amended): running non-interactive Normal mode twice is
idempotent at the level of filesystem STATE — both runs succeed and the
second run leaves every path exactly as the first run left it — but the
second run is not mutation free: it re-links each file entry (remove
plus symlink) instead of performing zero mutations.  Hypotheses: source
and destination are existing directories, neither is a prefix of the
other, the source tree contains no symlinks, and every visited entry's
destination is compatible (absent, matching kind, or a link into the
source). -/
theorem normal_mode_state_idempotent (c : Cfg) (ign : Path → Bool) (fs : FS)
    (hni : c.interactive = false)
    (hsrc : FS.find? fs c.src = some Entry.dir)
    (hdest : FS.find? fs c.dest = some Entry.dir)
    (hsd : ¬ c.src <+: c.dest) (hds : ¬ c.dest <+: c.src)
    (hnl : noSrcLinks fs c.src = true)
    (hcompat : (walkList fs ign c.src).all (entryCompat fs c) = true) :
    (run c Mode.Normal ign fs).err = none ∧
    (run c Mode.Normal ign (run c Mode.Normal ign fs).fs).err = none ∧
    FS.Equiv (run c Mode.Normal ign (run c Mode.Normal ign fs).fs).fs
      (run c Mode.Normal ign fs).fs := by
  have hinv0 : normalInv c ign fs fs := ⟨rfl, hdest, fun p _ => Or.inl rfl⟩
  rw [List.all_eq_true] at hcompat
  have h1 := runWalk_normal_inv hni hsrc hsd hds hnl (walkList fs ign c.src)
    (fun p hp => ⟨hp, hcompat p hp⟩) fs hinv0
  have hA1 : srcView c.src (run c Mode.Normal ign fs).fs = srcView c.src fs :=
    h1.2.1.1
  have hwalk : walkList (run c Mode.Normal ign fs).fs ign c.src
      = walkList fs ign c.src := walkList_eq_of_srcView hA1 ign
  have h2 := runWalk_normal_requiv hni hnl hA1 (walkList fs ign c.src)
    (fun p hp => ⟨hp, h1.2.2.1 p hp⟩) (run c Mode.Normal ign fs).fs (fun _ => rfl)
  refine ⟨h1.1, ?_, ?_⟩
  · show (runWalk (stepNormal c) (run c Mode.Normal ign fs).fs
      (walkList (run c Mode.Normal ign fs).fs ign c.src)).err = none
    rw [hwalk]
    exact h2.1
  · show FS.Equiv (runWalk (stepNormal c) (run c Mode.Normal ign fs).fs
      (walkList (run c Mode.Normal ign fs).fs ign c.src)).fs
      (run c Mode.Normal ign fs).fs
    rw [hwalk]
    exact h2.2

/-- C2 witness: state idempotence applied at the concrete one-file
tree. -/
theorem normal_mode_state_idempotent_witness :
    (run niCfg Mode.Normal emptyIgn fsOne).err = none ∧
    FS.Equiv (run niCfg Mode.Normal emptyIgn
        (run niCfg Mode.Normal emptyIgn fsOne).fs).fs
      (run niCfg Mode.Normal emptyIgn fsOne).fs :=
  ⟨(normal_mode_state_idempotent niCfg emptyIgn fsOne rfl (by decide) (by decide)
      (by decide) (by decide) (by decide) (by decide)).1,
   (normal_mode_state_idempotent niCfg emptyIgn fsOne rfl (by decide) (by decide)
      (by decide) (by decide) (by decide) (by decide)).2.2⟩

end Configman
